import Mathlib

/-!
Verification of the govm version manager core against its specification.

The Go source is shallowly embedded: strings are modelled through their
character lists, the relevant pieces of the filesystem (directory listings,
shim directory, active-version marker) are explicit values threaded through
the operations, and every Go function named below is translated directly
from the corresponding function in the repository:

- compareVersions, findMatchingVersion, findInstalledVersion
  (internal/styles/styles.go)
- the sort comparator of FetchGoVersions, the installed-directory scan and
  record construction of FetchGoVersions, SwitchVersion, DeleteVersion
  (internal/setup/model.go)
- the post-download purge loop of DownloadAndInstall (internal/utils/utils.go)
-/

/-! ## Character-level models of the Go string primitives -/

/-- Byte-wise strict comparison of strings as Go performs with the <
operator; on UTF-8 data the byte order coincides with code-point order,
so comparing the character lists is faithful. -/
def ltChars : List Char → List Char → Bool
  | _, [] => false
  | [], _ :: _ => true
  | a :: as, b :: bs => if a < b then true else if b < a then false else ltChars as bs

/-- Model of strings.Split(s, ".") at the character-list level: split on
every occurrence of the dot, keeping empty fields, never returning an
empty list. -/
def splitDot : List Char → List (List Char)
  | [] => [[]]
  | c :: cs =>
    if c = '.' then [] :: splitDot cs
    else
      match splitDot cs with
      | h :: t => (c :: h) :: t
      | [] => [[c]]

/-- Inverse of splitDot: interleave the fields with dots again. -/
def joinDot : List (List Char) → List Char
  | [] => []
  | [x] => x
  | x :: xs => x ++ '.' :: joinDot xs

/-- Value of a digit string read left to right, as strconv does. -/
def digitsVal (l : List Char) : Nat :=
  l.foldl (fun a c => 10 * a + (c.toNat - 48)) 0

/-- Model of strconv.Atoi with the error discarded, as every call site in
the repository does: a well-formed optionally signed decimal numeral maps
to its value clamped to the 64-bit integer range (ParseInt returns the
clamped extremum together with ErrRange, and the callers keep the value);
any syntactically invalid input maps to 0 (the zero value returned with
ErrSyntax). -/
def atoiChars : List Char → Int
  | [] => 0
  | c :: rest =>
    if c = '-' then
      if rest ≠ [] ∧ rest.all Char.isDigit then
        max (-(2 ^ 63)) (-(digitsVal rest : Int))
      else 0
    else if c = '+' then
      if rest ≠ [] ∧ rest.all Char.isDigit then
        min (2 ^ 63 - 1) (digitsVal rest : Int)
      else 0
    else
      if (c :: rest).all Char.isDigit then
        min (2 ^ 63 - 1) (digitsVal (c :: rest) : Int)
      else 0

/-- Model of strings.HasPrefix through the character lists. -/
def goHasPfx (p s : String) : Bool := p.data.isPrefixOf s.data

/-- Model of strings.TrimPrefix. -/
def goTrimPfx (p s : String) : String :=
  if goHasPfx p s then ⟨s.data.drop p.data.length⟩ else s

/-- Model of strings.Contains(s, ".") for the one-character separator. -/
def goContainsDot (s : String) : Bool := s.data.contains '.'

/-- Model of strings.Trim(s, cutset): remove every leading and trailing
character that occurs in the cutset. -/
def goTrimCutset (s : String) (cut : List Char) : String :=
  ⟨((s.data.dropWhile (fun c => cut.contains c)).reverse.dropWhile
      (fun c => cut.contains c)).reverse⟩

/-- Model of filepath.Join for the two-argument calls in the repository. -/
def pathJoin (a b : String) : String := a ++ "/" ++ b

/-! ## Version comparison (compareVersions, internal/styles/styles.go) -/

/-- The loop of compareVersions: walk the two component lists in step over
their common length and report the first numeric difference. -/
def cmpLoop : List (List Char) → List (List Char) → Option Int
  | p1 :: r1, p2 :: r2 =>
    if atoiChars p1 < atoiChars p2 then some (-1)
    else if atoiChars p2 < atoiChars p1 then some 1
    else cmpLoop r1 r2
  | _, _ => none

/-- compareVersions from internal/styles/styles.go: split both strings on
dots, compare components numerically over the common length, then break
ties by component count. -/
def compareVersions (v1 v2 : String) : Int :=
  match cmpLoop (splitDot v1.data) (splitDot v2.data) with
  | some r => r
  | none =>
    if (splitDot v1.data).length < (splitDot v2.data).length then -1
    else if (splitDot v2.data).length < (splitDot v1.data).length then 1
    else 0

/-! ## Catalog ordering (sort.Slice comparator of FetchGoVersions,
internal/setup/model.go) -/

/-- The less function handed to sort.Slice in FetchGoVersions: majors
decide when both present and different, then minors, then (when both
strings have more than two components) the patch comparison is returned
unconditionally, and only otherwise the raw string comparison decides. -/
def catalogLess (v1 v2 : String) : Bool :=
  if 0 < (splitDot v1.data).length ∧ 0 < (splitDot v2.data).length ∧
      atoiChars ((splitDot v1.data).getD 0 []) ≠
        atoiChars ((splitDot v2.data).getD 0 []) then
    decide (atoiChars ((splitDot v2.data).getD 0 []) <
      atoiChars ((splitDot v1.data).getD 0 []))
  else if 1 < (splitDot v1.data).length ∧ 1 < (splitDot v2.data).length ∧
      atoiChars ((splitDot v1.data).getD 1 []) ≠
        atoiChars ((splitDot v2.data).getD 1 []) then
    decide (atoiChars ((splitDot v2.data).getD 1 []) <
      atoiChars ((splitDot v1.data).getD 1 []))
  else if 2 < (splitDot v1.data).length ∧ 2 < (splitDot v2.data).length then
    decide (atoiChars ((splitDot v2.data).getD 2 []) <
      atoiChars ((splitDot v1.data).getD 2 []))
  else
    ltChars v2.data v1.data

/-! ## Data model -/

/-- GoVersion record (internal/setup/model.go). -/
structure GoVersion where
  Version : String
  Filename : String
  URL : String
  Installed : Bool
  Active : Bool
  Path : String
  Stable : Bool
deriving DecidableEq, Repr

/-- The zero value of the GoVersion struct. -/
def zeroGoVersion : GoVersion :=
  { Version := "", Filename := "", URL := "", Installed := false,
    Active := false, Path := "", Stable := false }

/-- One entry of an os.ReadDir listing of the versions directory. -/
structure DirEntry where
  name : String
  isDir : Bool
deriving DecidableEq, Repr

/-! ## Version resolver (findMatchingVersion, internal/styles/styles.go) -/

/-- State of the prefix-scan loop: the best match so far and the found
flag, exactly the two mutable locals of the Go loop. -/
structure ScanState where
  matched : GoVersion
  found : Bool
deriving DecidableEq, Repr

/-- One iteration of the prefix-scan loop of findMatchingVersion. -/
def pfxStep (pfx : String) (s : ScanState) (v : GoVersion) : ScanState :=
  if goHasPfx pfx v.Version then
    if s.found = false ∨ 0 < compareVersions v.Version s.matched.Version then
      { matched := v, found := true }
    else s
  else s

/-- The common tail of both resolvers: report the held match when the
found flag is set and the not-found error otherwise. -/
def finishScan (s : ScanState) (msg : String) : Except String GoVersion :=
  if s.found = true then .ok s.matched else .error msg

/-- findMatchingVersion from internal/styles/styles.go, with the catalog
fetch abstracted into the candidate list argument: exact match first, then
the prefix scan, then the defensive second prefix scan when the first
found nothing and the token has no dot, and a not-found error otherwise. -/
def findMatchingVersion (version : String) (versions : List GoVersion) :
    Except String GoVersion :=
  match versions.find? (fun v => v.Version == version) with
  | some v => .ok v
  | none =>
    if (versions.foldl (pfxStep (version ++ "."))
          { matched := zeroGoVersion, found := false }).found = false ∧
        goContainsDot version = false then
      finishScan
        (versions.foldl (pfxStep (version ++ "."))
          (versions.foldl (pfxStep (version ++ "."))
            { matched := zeroGoVersion, found := false }))
        ("no version matching " ++ version ++ " found")
    else
      finishScan
        (versions.foldl (pfxStep (version ++ "."))
          { matched := zeroGoVersion, found := false })
        ("no version matching " ++ version ++ " found")

/-- Comparison definition for the refinement claim about the defensive
retry: findMatchingVersion with the retry block deleted, following the
specification's description of the resolver without the defensive pass. -/
def findMatchingVersionNoRetry (version : String) (versions : List GoVersion) :
    Except String GoVersion :=
  match versions.find? (fun v => v.Version == version) with
  | some v => .ok v
  | none =>
    finishScan
      (versions.foldl (pfxStep (version ++ "."))
        { matched := zeroGoVersion, found := false })
      ("no version matching " ++ version ++ " found")

/-! ## Installed-directory resolver (findInstalledVersion,
internal/styles/styles.go) -/

/-- One iteration of the directory prefix-scan loop of
findInstalledVersion. -/
def instStep (dir pfx : String) (s : ScanState) (e : DirEntry) : ScanState :=
  if e.isDir ∧ goHasPfx pfx e.name then
    if s.found = false ∨
        0 < compareVersions (goTrimPfx "go" e.name) s.matched.Version then
      { matched :=
          { Version := goTrimPfx "go" e.name, Filename := "", URL := "",
            Installed := true, Active := false,
            Path := pathJoin dir e.name, Stable := false },
        found := true }
    else s
  else s

/-- findInstalledVersion from internal/styles/styles.go, with the
filesystem abstracted into the directory listing: the os.Stat exact check
succeeds exactly when the listing holds an entry named go plus the token;
otherwise the go-prefixed directory scan runs, with the same defensive
retry as the catalog resolver. -/
def findInstalledVersion (version : String) (entries : List DirEntry)
    (dir : String) : Except String GoVersion :=
  if entries.any (fun e => e.name == "go" ++ version) then
    .ok { Version := version, Filename := "", URL := "",
          Installed := true, Active := false,
          Path := pathJoin dir ("go" ++ version), Stable := false }
  else
    if (entries.foldl (instStep dir ("go" ++ version ++ "."))
          { matched := zeroGoVersion, found := false }).found = false ∧
        goContainsDot version = false then
      finishScan
        (entries.foldl (instStep dir ("go" ++ version ++ "."))
          (entries.foldl (instStep dir ("go" ++ version ++ "."))
            { matched := zeroGoVersion, found := false }))
        ("no installed version matching " ++ version ++ " found")
    else
      finishScan
        (entries.foldl (instStep dir ("go" ++ version ++ "."))
          { matched := zeroGoVersion, found := false })
        ("no installed version matching " ++ version ++ " found")

/-- Comparison definition: findInstalledVersion with the retry block
deleted. -/
def findInstalledVersionNoRetry (version : String) (entries : List DirEntry)
    (dir : String) : Except String GoVersion :=
  if entries.any (fun e => e.name == "go" ++ version) then
    .ok { Version := version, Filename := "", URL := "",
          Installed := true, Active := false,
          Path := pathJoin dir ("go" ++ version), Stable := false }
  else
    finishScan
      (entries.foldl (instStep dir ("go" ++ version ++ "."))
        { matched := zeroGoVersion, found := false })
      ("no installed version matching " ++ version ++ " found")

/-! ## Installer frame behaviour (DownloadAndInstall) -/

/-- The precondition cleanup of DownloadAndInstall
(internal/setup/model.go): remove the pre-existing directory of exactly
the version being installed, leaving every other entry of the versions
directory in place. -/
def installCleanup (entries : List DirEntry) (version : String) : List DirEntry :=
  entries.filter (fun e => e.name ≠ "go" ++ version)

/-- The post-download loop of DownloadAndInstall in
internal/utils/utils.go: walk the versions directory and RemoveAll every
go-prefixed directory whose path differs from the directory of the
version being installed. -/
def utilsInstallPurge (entries : List DirEntry) (version : String) : List DirEntry :=
  entries.filter (fun e =>
    ¬ (e.isDir = true ∧ goHasPfx "go" e.name = true ∧ e.name ≠ "go" ++ version))

/-! ## Catalog fetch cross-reference (FetchGoVersions,
internal/setup/model.go) -/

/-- One entry of the versions-directory scan: the name and directory flag
from os.ReadDir together with the outcome of the os.Stat probe for the
fixed relative binary path bin of the tool binary inside it. -/
structure VerDirEntry where
  name : String
  isDir : Bool
  hasBin : Bool
deriving DecidableEq, Repr

/-- The installedVersions map of FetchGoVersions, as an association list
from version string to install path: a directory entry qualifies when it
is a directory, its name carries the go naming convention, and the binary
probe inside it succeeds; Go map assignment overwrites, modelled by
removing the key first. -/
def installedScan (dir : String) (entries : List VerDirEntry) :
    List (String × String) :=
  entries.foldl
    (fun m e =>
      if e.isDir = true ∧ goHasPfx "go" e.name = true ∧ e.hasBin = true then
        (m.filter (fun p => p.1 ≠ goTrimPfx "go" e.name)) ++
          [(goTrimPfx "go" e.name, pathJoin dir e.name)]
      else m)
    []

/-- Lookup in the association list modelling a Go map. -/
def lookupAssoc (m : List (String × String)) (k : String) : Option String :=
  (m.find? (fun p => p.1 == k)).map (fun p => p.2)

/-- One release object of the parsed catalog JSON. -/
structure RelFile where
  filename : String
  fos : String
  arch : String
deriving DecidableEq, Repr

/-- A release entry of the catalog with its per-platform file list. -/
structure Release where
  version : String
  stable : Bool
  files : List RelFile
deriving DecidableEq, Repr

/-- The body of the record-construction loop of FetchGoVersions for one
release: keep the first file matching the host OS and architecture (the
inner loop breaks on the first hit, and the release is dropped when no
file matches), mark the record Installed with its path when the scan map
holds the version, and Active when the active version string equals it. -/
def buildStep (installed : List (String × String)) (activeVersion os arch : String)
    (acc : List GoVersion) (rel : Release) : List GoVersion :=
  match rel.files.find? (fun f => f.fos == os ∧ f.arch == arch) with
  | some file =>
    acc ++
      [(fun v1 =>
          if activeVersion == goTrimPfx "go" rel.version then
            { v1 with Active := true }
          else v1)
        (match lookupAssoc installed (goTrimPfx "go" rel.version) with
         | some path =>
           { Version := goTrimPfx "go" rel.version, Filename := file.filename,
             URL := "https://go.dev/dl/" ++ file.filename,
             Installed := true, Active := false, Path := path,
             Stable := rel.stable }
         | none =>
           { Version := goTrimPfx "go" rel.version, Filename := file.filename,
             URL := "https://go.dev/dl/" ++ file.filename,
             Installed := false, Active := false, Path := "",
             Stable := rel.stable })]
  | none => acc

/-- The record-construction loop of FetchGoVersions over all releases. -/
def buildRecords (releases : List Release) (installed : List (String × String))
    (activeVersion : String) (os arch : String) : List GoVersion :=
  releases.foldl (buildStep installed activeVersion os arch) []

/-! ## Activator (SwitchVersion, internal/setup/model.go), POSIX branch -/

/-- One entry of the target version's bin directory, together with the
fate the filesystem deals to the two fallible steps the loop performs on
it: whether os.WriteFile of the shim succeeds and whether the following
os.Chmod succeeds. -/
structure BinEntry where
  name : String
  isDir : Bool
  writeOk : Bool
  chmodOk : Bool
deriving DecidableEq, Repr

/-- The shim directory as an association list from shim file name to file
content. -/
abbrev ShimState := List (String × String)

/-- os.Remove of a shim: drop the entry with that name. -/
def removeShim (n : String) (σ : ShimState) : ShimState :=
  σ.filter (fun p => p.1 ≠ n)

/-- os.WriteFile of a shim: create or truncate the file with the new
content. -/
def writeShim (n c : String) (σ : ShimState) : ShimState :=
  removeShim n σ ++ [(n, c)]

/-- Lookup of a shim file by name. -/
def lookupShim (n : String) (σ : ShimState) : Option String :=
  lookupAssoc σ n

/-- The POSIX shim script SwitchVersion writes: a bash indirection that
invokes the target binary with all arguments passed through. -/
def shimScript (targetBin : String) : String :=
  "#!/usr/bin/env bash\n\"" ++ targetBin ++ "\" \"$@\"\n"

/-- The trimmed command name SwitchVersion derives from a bin-directory
entry: strings.Trim with the cutset of the three characters of .exe. -/
def trimDotExe (n : String) : String :=
  goTrimCutset n ['.', 'e', 'x']

/-- One iteration of the shim-regeneration loop of SwitchVersion, POSIX
branch: skip directories, trim the name, remove the old shim, write the
fresh shim and mark it executable; a failing write or chmod aborts the
whole operation carrying the shim state mutated so far. -/
def shimStep (binDir : String) (σ : ShimState) (e : BinEntry) :
    Except (String × ShimState) ShimState :=
  if e.isDir = false then
    let binName := trimDotExe e.name
    let targetBin := pathJoin binDir binName
    let σ1 := removeShim binName σ
    if e.writeOk then
      let σ2 := writeShim binName (shimScript targetBin) σ1
      if e.chmodOk then .ok σ2
      else .error ("failed to make shim executable", σ2)
    else .error ("failed to create shim for " ++ binName, σ1)
  else .ok σ

/-- The shim-regeneration loop over all bin-directory entries. -/
def shimLoop (binDir : String) (σ : ShimState) : List BinEntry →
    Except (String × ShimState) ShimState
  | [] => .ok σ
  | e :: es =>
    match shimStep binDir σ e with
    | .ok σ2 => shimLoop binDir σ2 es
    | .error r => .error r

/-- Outcome of a SwitchVersion run: the shim directory, the content of the
active-version marker file, and the error if any. -/
structure SwitchOutcome where
  shims : ShimState
  marker : String
  err : Option String
deriving DecidableEq

/-- SwitchVersion from internal/setup/model.go, POSIX branch, over the
modelled filesystem: fail when the bin directory of the target version is
absent, run the shim loop, and only after the loop completes successfully
overwrite the active-version marker with the version string. -/
def SwitchVersionModel (v : GoVersion) (binDirExists : Bool)
    (entries : List BinEntry) (σ0 : ShimState) (marker0 : String) :
    SwitchOutcome :=
  if binDirExists = false then
    { shims := σ0, marker := marker0,
      err := some ("go version directory not found: " ++ pathJoin v.Path "bin") }
  else
    match shimLoop (pathJoin v.Path "bin") σ0 entries with
    | .error r => { shims := r.2, marker := marker0, err := some r.1 }
    | .ok σf => { shims := σf, marker := v.Version, err := none }

/-- Comparison definition for the counterexample about shim command
names, following the specification's words: the entry name with the
platform executable suffix stripped, the suffix being .exe on the Windows
family and empty elsewhere — both readings leave a name without the .exe
suffix unchanged. -/
def specCommandName (n : String) : String :=
  if ".exe".data.isSuffixOf n.data then ⟨n.data.take (n.data.length - 4)⟩ else n

/-! ## Remover (DeleteVersion, internal/setup/model.go) -/

/-- Outcome variants of DeleteVersion. -/
inductive DeleteOutcome where
  | notInstalledErr (version : String)
  | activeErr
  | deleted (version : String)
deriving DecidableEq, Repr

/-- os.RemoveAll over the modelled filesystem: a list of existing paths,
from which the target and everything below it disappear. -/
def removeAllPaths (target : String) (fs : List String) : List String :=
  fs.filter (fun p => ¬ (p = target ∨ goHasPfx (target ++ "/") p = true))

/-- DeleteVersion from internal/setup/model.go: refuse when the record is
not Installed, refuse when it is Active, otherwise RemoveAll its path. -/
def DeleteVersionModel (v : GoVersion) (fs : List String) :
    DeleteOutcome × List String :=
  if v.Installed = false then (.notInstalledErr v.Version, fs)
  else if v.Active = true then (.activeErr, fs)
  else (.deleted v.Version, removeAllPaths v.Path fs)

/-! ## Domain of canonical version strings

The catalog serves versions of one to three numeric components; the
amended ordering claim is proved on that domain. -/

/-- A canonical version component: a non-empty digit string without a
superfluous leading zero whose value fits the 64-bit integer range, so
that the Atoi model neither rejects nor clamps it. -/
def CanonComp (l : List Char) : Prop :=
  l ≠ [] ∧ l.all Char.isDigit = true ∧
    (2 ≤ l.length → l.headD '0' ≠ '0') ∧ digitsVal l < 2 ^ 63

instance (l : List Char) : Decidable (CanonComp l) := by
  unfold CanonComp; infer_instance

/-- A canonical version string: at most three components, all of them
canonical. -/
def canonVersion (v : String) : Prop :=
  (splitDot v.data).length ≤ 3 ∧ ∀ p ∈ splitDot v.data, CanonComp p

instance (v : String) : Decidable (canonVersion v) := by
  unfold canonVersion; infer_instance

/-- A catalog candidate carrying only its version string, as the
resolver examples of the specification use. -/
def catalogEntry (v : String) : GoVersion :=
  { Version := v, Filename := "", URL := "", Installed := false,
    Active := false, Path := "", Stable := false }

/-! ## The comparison key of compareVersions

compareVersions only ever looks at the atoi images of the components, so
it factors through the list of parsed component values; keyCmp is that
factored comparison and carries the order-theoretic lemmas. -/

/-- Lexicographic three-way comparison of parsed component lists, a
shorter list losing against any extension of it. -/
def keyCmp : List Int → List Int → Int
  | [], [] => 0
  | [], _ :: _ => -1
  | _ :: _, [] => 1
  | a :: as, b :: bs =>
    if a < b then -1 else if b < a then 1 else keyCmp as bs

/-- The parsed-component key of a version string's character data. -/
def keyOf (l : List Char) : List Int := (splitDot l).map atoiChars

theorem keyCmp_self (a : List Int) : keyCmp a a = 0 := by
  induction a with
  | nil => rfl
  | cons x xs ih => simp [keyCmp, ih]

theorem keyCmp_neg (a b : List Int) : keyCmp a b = -keyCmp b a := by
  induction a generalizing b with
  | nil => cases b <;> simp [keyCmp]
  | cons x xs ih =>
    cases b with
    | nil => simp [keyCmp]
    | cons y ys =>
      simp only [keyCmp]
      rcases lt_trichotomy x y with h | h | h
      · simp [h, not_lt.mpr h.le, h.ne.symm]
      · simp [h, lt_irrefl, ih]
      · simp [h, not_lt.mpr h.le, h.ne.symm]

theorem keyCmp_eq_zero_iff (a b : List Int) : keyCmp a b = 0 ↔ a = b := by
  induction a generalizing b with
  | nil => cases b <;> simp [keyCmp]
  | cons x xs ih =>
    cases b with
    | nil => simp [keyCmp]
    | cons y ys =>
      simp only [keyCmp]
      rcases lt_trichotomy x y with h | h | h
      · simp [h, h.ne]
      · subst h; simp [lt_irrefl, ih]
      · have hne : x ≠ y := by omega
        simp only [if_neg (not_lt.mpr h.le), if_pos h]
        constructor
        · intro hc; norm_num at hc
        · intro hc; injection hc with h1 h2; exact absurd h1 hne

theorem keyCmp_trans_neg (a b c : List Int) (hab : keyCmp a b = -1)
    (hbc : keyCmp b c = -1) : keyCmp a c = -1 := by
  induction a generalizing b c with
  | nil =>
    cases c with
    | nil =>
      cases b with
      | nil => simp [keyCmp] at hab
      | cons y ys => simp [keyCmp] at hbc
    | cons z zs => simp [keyCmp]
  | cons x xs ih =>
    cases b with
    | nil => simp [keyCmp] at hab
    | cons y ys =>
      cases c with
      | nil => simp [keyCmp] at hbc
      | cons z zs =>
        simp only [keyCmp] at hab hbc ⊢
        rcases lt_trichotomy x y with hxy | hxy | hxy
        · rcases lt_trichotomy y z with hyz | hyz | hyz
          · simp [show x < z by omega]
          · subst hyz; simp [hxy]
          · exfalso; simp [not_lt.mpr hyz.le, hyz] at hbc
        · subst hxy
          rcases lt_trichotomy x z with hyz | hyz | hyz
          · simp [hyz]
          · subst hyz
            simp only [lt_irrefl, if_false] at hab hbc ⊢
            exact ih ys zs hab hbc
          · exfalso; simp [not_lt.mpr hyz.le, hyz] at hbc
        · exfalso; simp [not_lt.mpr hxy.le, hxy] at hab

theorem keyCmp_cases (a b : List Int) :
    keyCmp a b = -1 ∨ keyCmp a b = 0 ∨ keyCmp a b = 1 := by
  induction a generalizing b with
  | nil => cases b <;> simp [keyCmp]
  | cons x xs ih =>
    cases b with
    | nil => simp [keyCmp]
    | cons y ys =>
      simp only [keyCmp]
      rcases lt_trichotomy x y with h | h | h
      · simp [h]
      · subst h; simp [lt_irrefl]; exact ih ys
      · simp [not_lt.mpr h.le, h]

theorem keyCmp_trans_nonpos (a b c : List Int) (hab : keyCmp a b ≤ 0)
    (hbc : keyCmp b c ≤ 0) : keyCmp a c ≤ 0 := by
  rcases keyCmp_cases a b with h1 | h1 | h1
  · rcases keyCmp_cases b c with h2 | h2 | h2
    · simp [keyCmp_trans_neg a b c h1 h2]
    · rw [keyCmp_eq_zero_iff] at h2; subst h2; simp [h1]
    · omega
  · rw [keyCmp_eq_zero_iff] at h1; subst h1; exact hbc
  · omega

/-- compareVersions factors through the parsed-component keys. -/
theorem compareVersions_eq_keyCmp (v1 v2 : String) :
    compareVersions v1 v2 = keyCmp (keyOf v1.data) (keyOf v2.data) := by
  unfold compareVersions keyOf
  generalize splitDot v1.data = p1
  generalize splitDot v2.data = p2
  induction p1 generalizing p2 with
  | nil => cases p2 <;> simp [cmpLoop, keyCmp]
  | cons x xs ih =>
    cases p2 with
    | nil => simp [cmpLoop, keyCmp]
    | cons y ys =>
      simp only [cmpLoop, List.map_cons, keyCmp]
      rcases lt_trichotomy (atoiChars x) (atoiChars y) with h | h | h
      · simp [h]
      · rw [h]
        simp only [lt_irrefl, if_false, List.length_cons]
        have := ih ys
        simpa [Nat.succ_lt_succ_iff] using this
      · simp [not_lt.mpr h.le, h]

theorem compareVersions_self (v : String) : compareVersions v v = 0 := by
  rw [compareVersions_eq_keyCmp, keyCmp_self]

theorem compareVersions_neg (v1 v2 : String) :
    compareVersions v1 v2 = -compareVersions v2 v1 := by
  rw [compareVersions_eq_keyCmp, compareVersions_eq_keyCmp, keyCmp_neg]

theorem compareVersions_trans_nonpos (v1 v2 v3 : String)
    (h12 : compareVersions v1 v2 ≤ 0) (h23 : compareVersions v2 v3 ≤ 0) :
    compareVersions v1 v3 ≤ 0 := by
  rw [compareVersions_eq_keyCmp] at h12 h23 ⊢
  exact keyCmp_trans_nonpos _ _ _ h12 h23

/-! ## Behaviour of the prefix-scan loop -/

theorem pfxStep_not_elig (pfx : String) (s : ScanState) (v : GoVersion)
    (h : goHasPfx pfx v.Version = false) : pfxStep pfx s v = s := by
  unfold pfxStep
  rw [if_neg (by simp [h])]

theorem pfxStep_update (pfx : String) (s : ScanState) (v : GoVersion)
    (helig : goHasPfx pfx v.Version = true)
    (hcond : s.found = false ∨ 0 < compareVersions v.Version s.matched.Version) :
    pfxStep pfx s v = { matched := v, found := true } := by
  unfold pfxStep
  rw [if_pos helig, if_pos hcond]

theorem pfxStep_keep (pfx : String) (s : ScanState) (v : GoVersion)
    (helig : goHasPfx pfx v.Version = true) (hsf : s.found = true)
    (hle : compareVersions v.Version s.matched.Version ≤ 0) :
    pfxStep pfx s v = s := by
  unfold pfxStep
  rw [if_pos helig, if_neg]
  push_neg
  exact ⟨by simp [hsf], hle⟩

/-- Once the found flag is set, further scanning keeps it set and only
moves the held match upward in the compareVersions order. -/
theorem pfxScan_mono (pfx : String) (l : List GoVersion) :
    ∀ s : ScanState, s.found = true →
      (l.foldl (pfxStep pfx) s).found = true ∧
      compareVersions s.matched.Version
        (l.foldl (pfxStep pfx) s).matched.Version ≤ 0 := by
  induction l with
  | nil => exact fun s hs => ⟨hs, le_of_eq (compareVersions_self _)⟩
  | cons e es ih =>
    intro s hs
    simp only [List.foldl_cons]
    by_cases helig : goHasPfx pfx e.Version = true
    · by_cases hlt : 0 < compareVersions e.Version s.matched.Version
      · rw [pfxStep_update pfx s e helig (Or.inr hlt)]
        obtain ⟨hf, hle⟩ := ih { matched := e, found := true } rfl
        have hse : compareVersions s.matched.Version e.Version ≤ 0 := by
          rw [compareVersions_neg]; omega
        exact ⟨hf, compareVersions_trans_nonpos _ _ _ hse hle⟩
      · rw [pfxStep_keep pfx s e helig hs (le_of_not_lt hlt)]
        exact ih s hs
    · rw [pfxStep_not_elig pfx s e (by simpa using helig)]
      exact ih s hs

/-- The final match of the scan dominates every eligible candidate of the
list in the compareVersions order. -/
theorem pfxScan_max (pfx : String) (l : List GoVersion) :
    ∀ s : ScanState, ∀ v ∈ l, goHasPfx pfx v.Version = true →
      compareVersions v.Version
        (l.foldl (pfxStep pfx) s).matched.Version ≤ 0 := by
  induction l with
  | nil => intro s v hv; cases hv
  | cons e es ih =>
    intro s v hv helig
    simp only [List.foldl_cons]
    rcases List.mem_cons.mp hv with hv | hv
    · subst hv
      by_cases hsf : s.found = true
      · by_cases hlt : 0 < compareVersions v.Version s.matched.Version
        · rw [pfxStep_update pfx s v helig (Or.inr hlt)]
          exact (pfxScan_mono pfx es { matched := v, found := true } rfl).2
        · rw [pfxStep_keep pfx s v helig hsf (le_of_not_lt hlt)]
          exact compareVersions_trans_nonpos _ _ _ (le_of_not_lt hlt)
            (pfxScan_mono pfx es s hsf).2
      · have hsf0 : s.found = false := by
          cases h : s.found with
          | false => rfl
          | true => exact absurd h hsf
        rw [pfxStep_update pfx s v helig (Or.inl hsf0)]
        exact (pfxScan_mono pfx es { matched := v, found := true } rfl).2
    · exact ih (pfxStep pfx s e) v hv helig

/-- A scan that ends with the found flag clear changed nothing and passed
no eligible candidate. -/
theorem pfxScan_not_found (pfx : String) (l : List GoVersion) :
    ∀ s : ScanState, (l.foldl (pfxStep pfx) s).found = false →
      l.foldl (pfxStep pfx) s = s ∧
      ∀ v ∈ l, goHasPfx pfx v.Version = false := by
  induction l with
  | nil => exact fun s _ => ⟨rfl, by simp⟩
  | cons e es ih =>
    intro s hnf
    simp only [List.foldl_cons] at hnf ⊢
    by_cases helig : goHasPfx pfx e.Version = true
    · exfalso
      have hstep : (pfxStep pfx s e).found = true := by
        by_cases hsf : s.found = true
        · by_cases hlt : 0 < compareVersions e.Version s.matched.Version
          · rw [pfxStep_update pfx s e helig (Or.inr hlt)]
          · rw [pfxStep_keep pfx s e helig hsf (le_of_not_lt hlt)]; exact hsf
        · have hsf0 : s.found = false := by
            cases h : s.found with
            | false => rfl
            | true => exact absurd h hsf
          rw [pfxStep_update pfx s e helig (Or.inl hsf0)]
      have := (pfxScan_mono pfx es (pfxStep pfx s e) hstep).1
      rw [this] at hnf
      cases hnf
    · have h0 : goHasPfx pfx e.Version = false := by simpa using helig
      rw [pfxStep_not_elig pfx s e h0] at hnf ⊢
      obtain ⟨heq, hall⟩ := ih s hnf
      exact ⟨heq, fun v hv => by
        rcases List.mem_cons.mp hv with hv | hv
        · subst hv; exact h0
        · exact hall v hv⟩

/-- A scan over a list with no eligible candidate is the identity. -/
theorem pfxScan_id (pfx : String) (l : List GoVersion)
    (h : ∀ v ∈ l, goHasPfx pfx v.Version = false) :
    ∀ s : ScanState, l.foldl (pfxStep pfx) s = s := by
  induction l with
  | nil => exact fun s => rfl
  | cons e es ih =>
    intro s
    simp only [List.foldl_cons]
    rw [pfxStep_not_elig pfx s e (h e (List.mem_cons_self e es))]
    exact ih (fun v hv => h v (List.mem_cons_of_mem e hv)) s

/-- The match a successful scan holds was either already held on entry or
taken from an eligible element of the list. -/
theorem pfxScan_provenance (pfx : String) (l : List GoVersion) :
    ∀ s : ScanState,
      l.foldl (pfxStep pfx) s = s ∨
      ((l.foldl (pfxStep pfx) s).matched ∈ l ∧
        goHasPfx pfx (l.foldl (pfxStep pfx) s).matched.Version = true) := by
  induction l with
  | nil => exact fun s => Or.inl rfl
  | cons e es ih =>
    intro s
    simp only [List.foldl_cons]
    by_cases helig : goHasPfx pfx e.Version = true
    · by_cases hcond : s.found = false ∨ 0 < compareVersions e.Version s.matched.Version
      · rw [pfxStep_update pfx s e helig hcond]
        rcases ih { matched := e, found := true } with heq | ⟨hmem, hp⟩
        · rw [heq]
          exact Or.inr ⟨List.mem_cons_self e es, helig⟩
        · exact Or.inr ⟨List.mem_cons_of_mem e hmem, hp⟩
      · push_neg at hcond
        have hsf : s.found = true := by
          cases h : s.found with
          | false => exact absurd h hcond.1
          | true => rfl
        rw [pfxStep_keep pfx s e helig hsf hcond.2]
        rcases ih s with heq | ⟨hmem, hp⟩
        · exact Or.inl heq
        · exact Or.inr ⟨List.mem_cons_of_mem e hmem, hp⟩
    · rw [pfxStep_not_elig pfx s e (by simpa using helig)]
      rcases ih s with heq | ⟨hmem, hp⟩
      · exact Or.inl heq
      · exact Or.inr ⟨List.mem_cons_of_mem e hmem, hp⟩

/-! ## Behaviour of the installed-directory scan loop -/

theorem instStep_not_elig (dir pfx : String) (s : ScanState) (e : DirEntry)
    (h : ¬ (e.isDir = true ∧ goHasPfx pfx e.name = true)) :
    instStep dir pfx s e = s := by
  unfold instStep
  rw [if_neg (by simpa using h)]

theorem instStep_found (dir pfx : String) (s : ScanState) (e : DirEntry)
    (hs : s.found = true) : (instStep dir pfx s e).found = true := by
  unfold instStep
  by_cases helig : e.isDir = true ∧ goHasPfx pfx e.name = true
  · rw [if_pos (by simpa using helig)]
    split
    · rfl
    · exact hs
  · rw [if_neg (by simpa using helig)]
    exact hs

theorem instScan_mono (dir pfx : String) (l : List DirEntry) :
    ∀ s : ScanState, s.found = true →
      (l.foldl (instStep dir pfx) s).found = true := by
  induction l with
  | nil => exact fun s hs => hs
  | cons e es ih =>
    intro s hs
    simp only [List.foldl_cons]
    exact ih (instStep dir pfx s e) (instStep_found dir pfx s e hs)

theorem instScan_not_found (dir pfx : String) (l : List DirEntry) :
    ∀ s : ScanState, (l.foldl (instStep dir pfx) s).found = false →
      l.foldl (instStep dir pfx) s = s ∧
      ∀ e ∈ l, ¬ (e.isDir = true ∧ goHasPfx pfx e.name = true) := by
  induction l with
  | nil => exact fun s _ => ⟨rfl, by simp⟩
  | cons e es ih =>
    intro s hnf
    simp only [List.foldl_cons] at hnf ⊢
    by_cases helig : e.isDir = true ∧ goHasPfx pfx e.name = true
    · exfalso
      have hstep : (instStep dir pfx s e).found = true := by
        unfold instStep
        rw [if_pos (by simpa using helig)]
        split
        · rfl
        · rename_i hcond
          push_neg at hcond
          cases h : s.found with
          | false => exact absurd h hcond.1
          | true => rfl
      have := instScan_mono dir pfx es (instStep dir pfx s e) hstep
      rw [this] at hnf
      cases hnf
    · rw [instStep_not_elig dir pfx s e helig] at hnf ⊢
      obtain ⟨heq, hall⟩ := ih s hnf
      refine ⟨heq, fun x hx => ?_⟩
      rcases List.mem_cons.mp hx with hx | hx
      · subst hx; exact helig
      · exact hall x hx

theorem instScan_id (dir pfx : String) (l : List DirEntry)
    (h : ∀ e ∈ l, ¬ (e.isDir = true ∧ goHasPfx pfx e.name = true)) :
    ∀ s : ScanState, l.foldl (instStep dir pfx) s = s := by
  induction l with
  | nil => exact fun s => rfl
  | cons e es ih =>
    intro s
    simp only [List.foldl_cons]
    rw [instStep_not_elig dir pfx s e (h e (List.mem_cons_self e es))]
    exact ih (fun x hx => h x (List.mem_cons_of_mem e hx)) s

/-! ## Behaviour of the shim-regeneration loop -/

/-- A list containing a non-directory entry whose write or chmod step
fails makes the shim loop abort with an error. -/
theorem shimLoop_error_of_fail (binDir : String) (entries : List BinEntry) :
    ∀ σ : ShimState,
      (∃ e ∈ entries, e.isDir = false ∧ (e.writeOk = false ∨ e.chmodOk = false)) →
      ∃ msg σp, shimLoop binDir σ entries = .error (msg, σp) := by
  induction entries with
  | nil => intro σ h; obtain ⟨e, he, _⟩ := h; cases he
  | cons e es ih =>
    intro σ h
    simp only [shimLoop]
    cases hstep : shimStep binDir σ e with
    | error r => exact ⟨r.1, r.2, rfl⟩
    | ok σ2 =>
      obtain ⟨f, hf, hbad⟩ := h
      rcases List.mem_cons.mp hf with hfe | hfes
      · exfalso
        subst hfe
        unfold shimStep at hstep
        rw [if_pos hbad.1] at hstep
        rcases hbad.2 with hw | hc
        · rw [if_neg (by simp [hw])] at hstep
          cases hstep
        · cases hwok : f.writeOk with
          | false =>
            rw [if_neg (by simp [hwok])] at hstep
            cases hstep
          | true =>
            rw [if_pos hwok, if_neg (by simp [hc])] at hstep
            cases hstep
      · exact ih σ2 ⟨f, hfes, hbad⟩

/-! ## Association-list lemmas shared by the shim directory and the
installed-versions map -/

theorem lookupAssoc_filter_self (m : List (String × String)) (n : String) :
    lookupAssoc (m.filter (fun p => p.1 ≠ n)) n = none := by
  unfold lookupAssoc
  rw [List.find?_eq_none.mpr]
  · rfl
  · intro p hp
    have := (List.mem_filter.mp hp).2
    simpa using (by simpa using this : p.1 ≠ n)

theorem lookupAssoc_filter_other (m : List (String × String)) (n k : String)
    (h : k ≠ n) :
    lookupAssoc (m.filter (fun p => p.1 ≠ n)) k = lookupAssoc m k := by
  unfold lookupAssoc
  congr 1
  induction m with
  | nil => rfl
  | cons p ps ih =>
    by_cases hp : p.1 = n
    · have hpk : (p.1 == k) = false := by
        simp [hp]
        exact fun hnk => absurd hnk.symm h
      rw [List.filter_cons_of_neg (by simp [hp])]
      rw [List.find?_cons_of_neg _ (by simp [hpk])]
      exact ih
    · rw [List.filter_cons_of_pos (by simp [hp])]
      by_cases hpk : p.1 = k
      · rw [List.find?_cons_of_pos _ (by simp [hpk]),
          List.find?_cons_of_pos _ (by simp [hpk])]
      · rw [List.find?_cons_of_neg _ (by simp [hpk]),
          List.find?_cons_of_neg _ (by simp [hpk])]
        exact ih

theorem lookupAssoc_append_right (m1 m2 : List (String × String)) (k : String)
    (h : lookupAssoc m1 k = none) :
    lookupAssoc (m1 ++ m2) k = lookupAssoc m2 k := by
  unfold lookupAssoc at h ⊢
  rw [List.find?_append]
  cases hf : m1.find? (fun p => p.1 == k) with
  | some p => rw [hf] at h; cases h
  | none => simp

theorem lookupAssoc_append_left (m1 m2 : List (String × String)) (k : String)
    (p : String) (h : lookupAssoc m1 k = some p) :
    lookupAssoc (m1 ++ m2) k = some p := by
  unfold lookupAssoc at h ⊢
  rw [List.find?_append]
  cases hf : m1.find? (fun q => q.1 == k) with
  | some q => rw [hf] at h; simpa using h
  | none => rw [hf] at h; cases h

theorem lookupShim_writeShim_self (n c : String) (σ : ShimState) :
    lookupShim n (writeShim n c σ) = some c := by
  unfold lookupShim writeShim removeShim
  rw [lookupAssoc_append_right _ _ _ (lookupAssoc_filter_self σ n)]
  unfold lookupAssoc
  simp

theorem lookupShim_writeShim_other (n c k : String) (σ : ShimState)
    (h : k ≠ n) : lookupShim k (writeShim n c σ) = lookupShim k σ := by
  unfold lookupShim writeShim removeShim
  have h2 : lookupAssoc [(n, c)] k = none := by
    unfold lookupAssoc
    rw [List.find?_cons_of_neg]
    · rfl
    · simp only [beq_iff_eq]
      exact Ne.symm h
  cases hf : lookupAssoc (σ.filter (fun p => p.1 ≠ n)) k with
  | some p =>
    rw [lookupAssoc_append_left _ _ _ _ hf]
    rw [← lookupAssoc_filter_other σ n k h]
    exact hf.symm
  | none =>
    rw [lookupAssoc_append_right _ _ _ hf, h2]
    rw [← lookupAssoc_filter_other σ n k h]
    exact hf.symm

theorem lookupShim_removeShim_other (n k : String) (σ : ShimState)
    (h : k ≠ n) : lookupShim k (removeShim n σ) = lookupShim k σ := by
  unfold lookupShim removeShim
  exact lookupAssoc_filter_other σ n k h

theorem shimStep_ok_dir (binDir : String) (σ : ShimState) (e : BinEntry)
    (h : e.isDir = true) : shimStep binDir σ e = .ok σ := by
  unfold shimStep
  rw [if_neg (by simp [h])]

theorem shimStep_ok_nondir (binDir : String) (σ : ShimState) (e : BinEntry)
    (h : e.isDir = false) (hw : e.writeOk = true) (hc : e.chmodOk = true) :
    shimStep binDir σ e =
      .ok (writeShim (trimDotExe e.name)
            (shimScript (pathJoin binDir (trimDotExe e.name)))
            (removeShim (trimDotExe e.name) σ)) := by
  unfold shimStep
  rw [if_pos h, if_pos hw, if_pos hc]

theorem shimStep_ok_inv (binDir : String) (σ σ2 : ShimState) (e : BinEntry)
    (h : shimStep binDir σ e = .ok σ2) :
    (e.isDir = true ∧ σ2 = σ) ∨
    (e.isDir = false ∧ e.writeOk = true ∧ e.chmodOk = true ∧
      σ2 = writeShim (trimDotExe e.name)
            (shimScript (pathJoin binDir (trimDotExe e.name)))
            (removeShim (trimDotExe e.name) σ)) := by
  cases hd : e.isDir with
  | true =>
    rw [shimStep_ok_dir binDir σ e hd] at h
    exact Or.inl ⟨rfl, by injection h with h2; exact h2.symm⟩
  | false =>
    cases hw : e.writeOk with
    | false =>
      exfalso
      unfold shimStep at h
      rw [if_pos hd, if_neg (by simp [hw])] at h
      cases h
    | true =>
      cases hc : e.chmodOk with
      | false =>
        exfalso
        unfold shimStep at h
        rw [if_pos hd, if_pos hw, if_neg (by simp [hc])] at h
        cases h
      | true =>
        rw [shimStep_ok_nondir binDir σ e hd hw hc] at h
        injection h with h2
        exact Or.inr ⟨rfl, rfl, rfl, h2.symm⟩

/-- A successful shim loop leaves every shim untouched whose name is not
the trimmed name of one of its non-directory entries. -/
theorem shimLoop_frame (binDir : String) (entries : List BinEntry) :
    ∀ (σ σf : ShimState), shimLoop binDir σ entries = .ok σf →
      ∀ n, (∀ e ∈ entries, e.isDir = false → trimDotExe e.name ≠ n) →
        lookupShim n σf = lookupShim n σ := by
  induction entries with
  | nil =>
    intro σ σf h n _
    injection h with h2
    rw [h2]
  | cons e es ih =>
    intro σ σf h n hn
    simp only [shimLoop] at h
    cases hstep : shimStep binDir σ e with
    | error r => rw [hstep] at h; cases h
    | ok σ2 =>
      rw [hstep] at h
      have hrec := ih σ2 σf h n (fun x hx hd => hn x (List.mem_cons_of_mem e hx) hd)
      rcases shimStep_ok_inv binDir σ σ2 e hstep with ⟨_, hσ⟩ | ⟨hd, _, _, hσ⟩
      · rw [hrec, hσ]
      · rw [hrec, hσ]
        have hne : n ≠ trimDotExe e.name :=
          Ne.symm (hn e (List.mem_cons_self e es) hd)
        rw [lookupShim_writeShim_other _ _ _ _ hne,
          lookupShim_removeShim_other _ _ _ hne]

/-- A shim loop over entries whose write and chmod steps all succeed ends
successfully, and every non-directory entry leaves behind exactly the
fresh shim for its trimmed command name, forwarding to that trimmed name
under the bin directory. -/
theorem shimLoop_writes (binDir : String) (entries : List BinEntry) :
    ∀ σ : ShimState,
      (∀ e ∈ entries, e.isDir = false → e.writeOk = true ∧ e.chmodOk = true) →
      (((entries.filter fun e => e.isDir = false).map
          fun e => trimDotExe e.name).Nodup) →
      ∃ σf, shimLoop binDir σ entries = .ok σf ∧
        ∀ e ∈ entries, e.isDir = false →
          lookupShim (trimDotExe e.name) σf =
            some (shimScript (pathJoin binDir (trimDotExe e.name))) := by
  induction entries with
  | nil => exact fun σ _ _ => ⟨σ, rfl, by simp⟩
  | cons e es ih =>
    intro σ hok hnd
    cases hd : e.isDir with
    | true =>
      have hnd2 : ((es.filter fun x => x.isDir = false).map
          fun x => trimDotExe x.name).Nodup := by
        rw [List.filter_cons_of_neg (by simp [hd])] at hnd
        exact hnd
      obtain ⟨σf, hloop, hall⟩ :=
        ih σ (fun x hx => hok x (List.mem_cons_of_mem e hx)) hnd2
      refine ⟨σf, ?_, ?_⟩
      · simp only [shimLoop]
        rw [shimStep_ok_dir binDir σ e hd]
        exact hloop
      · intro x hx hxd
        rcases List.mem_cons.mp hx with hxe | hxes
        · subst hxe; rw [hd] at hxd; cases hxd
        · exact hall x hxes hxd
    | false =>
      obtain ⟨hw, hc⟩ := hok e (List.mem_cons_self e es) hd
      have hmnd := by
        rw [List.filter_cons_of_pos (by simp [hd]), List.map_cons] at hnd
        exact hnd
      have hnotin : trimDotExe e.name ∉
          ((es.filter fun x => x.isDir = false).map fun x => trimDotExe x.name) :=
        (List.nodup_cons.mp hmnd).1
      have hnd2 : ((es.filter fun x => x.isDir = false).map
          fun x => trimDotExe x.name).Nodup := (List.nodup_cons.mp hmnd).2
      obtain ⟨σf, hloop, hall⟩ :=
        ih (writeShim (trimDotExe e.name)
              (shimScript (pathJoin binDir (trimDotExe e.name)))
              (removeShim (trimDotExe e.name) σ))
          (fun x hx => hok x (List.mem_cons_of_mem e hx)) hnd2
      refine ⟨σf, ?_, ?_⟩
      · simp only [shimLoop]
        rw [shimStep_ok_nondir binDir σ e hd hw hc]
        exact hloop
      · intro x hx hxd
        rcases List.mem_cons.mp hx with hxe | hxes
        · subst hxe
          have hfr := shimLoop_frame binDir es _ σf hloop (trimDotExe x.name)
            (fun y hy hyd hcon => hnotin (by
              rw [← hcon]
              exact List.mem_map.mpr ⟨y, List.mem_filter.mpr ⟨hy, by simp [hyd]⟩, rfl⟩))
          rw [hfr, lookupShim_writeShim_self]
        · exact hall x hxes hxd

/-! ## Claim C4 -/

/-- C4 counterexample: the claim predicts that the shim generated for a
bin-directory entry is named like the entry with only the platform
executable suffix stripped, and forwards to that entry's own binary; the
entry gox has no .exe suffix, so its predicted command name is gox, yet
the strings.Trim cutset call of SwitchVersion produces a shim named go
forwarding to the non-existent path of go, and no shim named gox. -/
theorem shim_name_cutset_cex :
    specCommandName "gox" = "gox" ∧
    shimLoop "/v/bin" []
        [{ name := "gox", isDir := false, writeOk := true, chmodOk := true }] =
      .ok [("go", shimScript "/v/bin/go")] ∧
    lookupShim "gox" [("go", shimScript "/v/bin/go")] = none ∧
    trimDotExe "gox" = "go" := by
  refine ⟨by decide, ?_, by decide, by decide⟩
  rfl

/-- C4, amended: when the binary directory exists and every write and
chmod step succeeds, the activator processes every non-directory entry of
the listing; the generated shim's command name is the entry name with all
leading and trailing characters of the cutset consisting of dot, e and x
removed (strings.Trim, which coincides with stripping a literal .exe
suffix exactly when the trimmed name is the whole name without it), the
previous shim of that name is removed and a fresh executable shim is
written whose target is that trimmed command name resolved inside the
target version's bin directory. -/
theorem shim_regen_trim_names (v : GoVersion) (entries : List BinEntry)
    (σ0 : ShimState) (m0 : String)
    (hok : ∀ e ∈ entries, e.isDir = false → e.writeOk = true ∧ e.chmodOk = true)
    (hnd : (((entries.filter fun e => e.isDir = false).map
        fun e => trimDotExe e.name).Nodup)) :
    ∃ σf, SwitchVersionModel v true entries σ0 m0 =
        { shims := σf, marker := v.Version, err := none } ∧
      ∀ e ∈ entries, e.isDir = false →
        trimDotExe e.name = goTrimCutset e.name ['.', 'e', 'x'] ∧
        lookupShim (trimDotExe e.name) σf =
          some (shimScript (pathJoin (pathJoin v.Path "bin") (trimDotExe e.name))) := by
  obtain ⟨σf, hloop, hall⟩ :=
    shimLoop_writes (pathJoin v.Path "bin") entries σ0 hok hnd
  refine ⟨σf, ?_, fun e he hd => ⟨rfl, hall e he hd⟩⟩
  unfold SwitchVersionModel
  rw [if_neg (by simp)]
  rw [hloop]

/-- C4 witness: a concrete successful activation over the two standard
entries go and gofmt regenerates both shims. -/
theorem shim_regen_trim_names_witness :
    ∃ σf, SwitchVersionModel (catalogEntry "1.21.0") true
        [{ name := "go", isDir := false, writeOk := true, chmodOk := true },
         { name := "gofmt", isDir := false, writeOk := true, chmodOk := true }]
        [] "1.20.0" =
        { shims := σf, marker := "1.21.0", err := none } ∧
      ∀ e ∈ [({ name := "go", isDir := false, writeOk := true, chmodOk := true } : BinEntry),
             { name := "gofmt", isDir := false, writeOk := true, chmodOk := true }],
        e.isDir = false →
        trimDotExe e.name = goTrimCutset e.name ['.', 'e', 'x'] ∧
        lookupShim (trimDotExe e.name) σf =
          some (shimScript (pathJoin (pathJoin (catalogEntry "1.21.0").Path "bin")
            (trimDotExe e.name))) :=
  shim_regen_trim_names (catalogEntry "1.21.0") _ [] "1.20.0"
    (by decide) (by decide)

/-! ## Claim C5 -/

/-- C5: deleting a record marked Installed and Active fails with the
active-version error and leaves the filesystem untouched; the Installed
precondition is checked first, so a record not marked Installed fails
with the not-installed error, also without touching the filesystem. -/
theorem delete_preconditions (v : GoVersion) (fs : List String) :
    (v.Installed = true → v.Active = true →
      DeleteVersionModel v fs = (DeleteOutcome.activeErr, fs)) ∧
    (v.Installed = false →
      DeleteVersionModel v fs = (DeleteOutcome.notInstalledErr v.Version, fs)) := by
  constructor
  · intro hi ha
    unfold DeleteVersionModel
    rw [if_neg (by simp [hi]), if_pos ha]
  · intro hi
    unfold DeleteVersionModel
    rw [if_pos hi]

/-- C5 witness: concrete records exercising both precondition failures. -/
theorem delete_preconditions_witness :
    DeleteVersionModel
        { Version := "1.21.0", Filename := "", URL := "", Installed := true,
          Active := true, Path := "/h/.govm/versions/go1.21.0", Stable := true }
        ["/h/.govm/versions/go1.21.0"] =
      (DeleteOutcome.activeErr, ["/h/.govm/versions/go1.21.0"]) ∧
    DeleteVersionModel
        { Version := "1.20.0", Filename := "", URL := "", Installed := false,
          Active := false, Path := "", Stable := true }
        ["/h/.govm/versions/go1.21.0"] =
      (DeleteOutcome.notInstalledErr "1.20.0", ["/h/.govm/versions/go1.21.0"]) :=
  ⟨(delete_preconditions _ _).1 rfl rfl, (delete_preconditions _ _).2 rfl⟩

/-! ## Claim C6 -/

/-- C6: evaluation of the code at the failing input. Installing version
1.22.0 while version 1.21.5 is installed: the precondition cleanup of
DownloadAndInstall alone leaves go1.21.5 in place, but the post-download
purge loop of the utils variant of DownloadAndInstall removes every other
go-prefixed directory, deleting installed version 1.21.5 — contradicting
the claim that other installed versions are left unchanged. -/
theorem utils_install_purges_other_versions :
    installCleanup [{ name := "go1.21.5", isDir := true }] "1.22.0" =
      [{ name := "go1.21.5", isDir := true }] ∧
    utilsInstallPurge [{ name := "go1.21.5", isDir := true }] "1.22.0" = [] := by
  constructor
  · rfl
  · rfl

/-! ## Claim C8 -/

/-- C8: for tokens with no separator, the defensive second prefix pass is
a no-op — the resolver with the retry block returns exactly the same
result as the resolver without it, for the catalog resolver and for the
installed-directory resolver alike. -/
theorem retry_pass_noop (token : String) (versions : List GoVersion)
    (entries : List DirEntry) (dir : String)
    (h : goContainsDot token = false) :
    findMatchingVersion token versions = findMatchingVersionNoRetry token versions ∧
    findInstalledVersion token entries dir =
      findInstalledVersionNoRetry token entries dir := by
  constructor
  · unfold findMatchingVersion findMatchingVersionNoRetry
    cases hf : versions.find? (fun v => v.Version == token) with
    | some v => rfl
    | none =>
      by_cases h1 : (versions.foldl (pfxStep (token ++ "."))
          { matched := zeroGoVersion, found := false }).found = false
      · rw [if_pos ⟨h1, h⟩]
        obtain ⟨_, hnone⟩ := pfxScan_not_found (token ++ ".") versions _ h1
        rw [pfxScan_id (token ++ ".") versions hnone]
      · rw [if_neg (by intro hcon; exact h1 hcon.1)]
  · unfold findInstalledVersion findInstalledVersionNoRetry
    by_cases hex : entries.any (fun e => e.name == "go" ++ token) = true
    · rw [if_pos hex, if_pos hex]
    · rw [if_neg hex, if_neg hex]
      by_cases h1 : (entries.foldl (instStep dir ("go" ++ token ++ "."))
          { matched := zeroGoVersion, found := false }).found = false
      · rw [if_pos ⟨h1, h⟩]
        obtain ⟨_, hnone⟩ := instScan_not_found dir ("go" ++ token ++ ".") entries _ h1
        rw [instScan_id dir ("go" ++ token ++ ".") entries hnone]
      · rw [if_neg (by intro hcon; exact h1 hcon.1)]

/-- C8 witness: the token 1 (no separator) resolves identically with and
without the retry block on a concrete catalog and directory listing. -/
theorem retry_pass_noop_witness :
    goContainsDot "1" = false ∧
    (findMatchingVersion "1" [catalogEntry "1.19.0"] =
        findMatchingVersionNoRetry "1" [catalogEntry "1.19.0"] ∧
      findInstalledVersion "1" [{ name := "go1.19.0", isDir := true }] "/h" =
        findInstalledVersionNoRetry "1" [{ name := "go1.19.0", isDir := true }] "/h") :=
  ⟨by decide, retry_pass_noop "1" [catalogEntry "1.19.0"]
    [{ name := "go1.19.0", isDir := true }] "/h" (by decide)⟩

/-! ## Claim C9 -/

/-- C9: the active-version marker is written only after the whole shim
loop has succeeded; whenever some non-directory entry's shim write or
chmod step fails, the switch returns an error, the marker file keeps its
prior content, and the shims written before the failure remain on disk as
the partially mutated shim state. -/
theorem switch_error_preserves_marker (v : GoVersion) (entries : List BinEntry)
    (σ0 : ShimState) (m0 : String)
    (hfail : ∃ e ∈ entries, e.isDir = false ∧
      (e.writeOk = false ∨ e.chmodOk = false)) :
    ∃ msg σp,
      shimLoop (pathJoin v.Path "bin") σ0 entries = .error (msg, σp) ∧
      SwitchVersionModel v true entries σ0 m0 =
        { shims := σp, marker := m0, err := some msg } := by
  obtain ⟨msg, σp, hloop⟩ :=
    shimLoop_error_of_fail (pathJoin v.Path "bin") entries σ0 hfail
  refine ⟨msg, σp, hloop, ?_⟩
  unfold SwitchVersionModel
  rw [if_neg (by simp)]
  rw [hloop]

/-- C9 witness: a concrete run whose second entry fails its write keeps
the prior marker while the first entry's fresh shim remains. -/
theorem switch_error_preserves_marker_witness :
    ∃ msg σp,
      shimLoop (pathJoin (catalogEntry "1.21.0").Path "bin") []
          [{ name := "go", isDir := false, writeOk := true, chmodOk := true },
           { name := "gofmt", isDir := false, writeOk := false, chmodOk := true }] =
        .error (msg, σp) ∧
      SwitchVersionModel (catalogEntry "1.21.0") true
          [{ name := "go", isDir := false, writeOk := true, chmodOk := true },
           { name := "gofmt", isDir := false, writeOk := false, chmodOk := true }]
          [] "1.20.0" =
        { shims := σp, marker := "1.20.0", err := some msg } :=
  switch_error_preserves_marker (catalogEntry "1.21.0") _ [] "1.20.0"
    ⟨{ name := "gofmt", isDir := false, writeOk := false, chmodOk := true },
      by decide, by decide⟩

/-! ## Claim C10 -/

theorem cmpLoop_none_of_parse_eq :
    ∀ p1 p2 : List (List Char),
      (∀ p ∈ p1.zip p2, atoiChars p.1 = atoiChars p.2) →
      cmpLoop p1 p2 = none := by
  intro p1
  induction p1 with
  | nil => intro p2 _; cases p2 <;> rfl
  | cons x xs ih =>
    intro p2 h
    cases p2 with
    | nil => rfl
    | cons y ys =>
      have hxy : atoiChars x = atoiChars y :=
        h (x, y) (by simp [List.zip_cons_cons])
      simp only [cmpLoop, hxy, lt_irrefl, if_false]
      exact ih ys (fun p hp => h p (by simp [List.zip_cons_cons, hp]))

/-- C10: compareVersions parses components with the Atoi error discarded,
so any component that is not a valid decimal numeral counts as 0; in
particular comparing 1.x against 1.0 yields 0, and whenever all
corresponding components of two version strings parse equal, the result
is decided solely by the component-count tie-break, the string with fewer
components comparing less. -/
theorem compare_nonnumeric_zero :
    compareVersions "1.x" "1.0" = 0 ∧
    ∀ v1 v2 : String,
      (∀ p ∈ (splitDot v1.data).zip (splitDot v2.data),
          atoiChars p.1 = atoiChars p.2) →
      compareVersions v1 v2 =
        (if (splitDot v1.data).length < (splitDot v2.data).length then -1
         else if (splitDot v2.data).length < (splitDot v1.data).length then 1
         else 0) := by
  constructor
  · decide
  · intro v1 v2 h
    unfold compareVersions
    rw [cmpLoop_none_of_parse_eq _ _ h]

/-- C10 witness: 1.x against 1.0.0 has parse-equal corresponding
components, and the shorter string loses the tie-break. -/
theorem compare_nonnumeric_zero_witness :
    compareVersions "1.x" "1.0.0" =
      (if (splitDot "1.x".data).length < (splitDot "1.0.0".data).length then -1
       else if (splitDot "1.0.0".data).length < (splitDot "1.x".data).length then 1
       else 0) :=
  compare_nonnumeric_zero.2 "1.x" "1.0.0" (by decide)

/-! ## Claim C2 -/

/-- C2: an exact match wins immediately in both resolvers — when some
candidate's version string equals the token verbatim, the catalog
resolver returns a candidate with exactly that version, and the
installed-directory resolver returns the record of the directory named go
plus the token — even when a numerically greater dotted-prefix match
exists, as the concrete 1.21 example shows. -/
theorem resolver_exact_match_wins (token : String) (versions : List GoVersion)
    (entries : List DirEntry) (dir : String) :
    ((∃ v ∈ versions, v.Version = token) →
      ∃ w, findMatchingVersion token versions = .ok w ∧ w.Version = token) ∧
    ((∃ e ∈ entries, e.name = "go" ++ token) →
      findInstalledVersion token entries dir =
        .ok { Version := token, Filename := "", URL := "", Installed := true,
              Active := false, Path := pathJoin dir ("go" ++ token),
              Stable := false }) ∧
    findMatchingVersion "1.21" [catalogEntry "1.21", catalogEntry "1.21.5"] =
      .ok (catalogEntry "1.21") := by
  refine ⟨?_, ?_, by rfl⟩
  · rintro ⟨v, hv, hveq⟩
    cases hf : versions.find? (fun x => x.Version == token) with
    | none =>
      exact absurd (by simp [hveq]) (List.find?_eq_none.mp hf v hv)
    | some w =>
      have hwp := List.find?_some hf
      refine ⟨w, ?_, by simpa using hwp⟩
      unfold findMatchingVersion
      rw [hf]
  · rintro ⟨e, he, hename⟩
    have hany : entries.any (fun x => x.name == "go" ++ token) = true :=
      List.any_eq_true.mpr ⟨e, he, by simp [hename]⟩
    unfold findInstalledVersion
    rw [if_pos hany]

/-- C2 witness: the exact token 1.21 beats the numerically greater
1.21.5 in the catalog and the directory listing alike. -/
theorem resolver_exact_match_wins_witness :
    (∃ w, findMatchingVersion "1.21" [catalogEntry "1.21", catalogEntry "1.21.5"] =
        .ok w ∧ w.Version = "1.21") ∧
    findInstalledVersion "1.21"
        [{ name := "go1.21", isDir := true }, { name := "go1.21.5", isDir := true }]
        "/h/.govm/versions" =
      .ok { Version := "1.21", Filename := "", URL := "", Installed := true,
            Active := false,
            Path := pathJoin "/h/.govm/versions" ("go" ++ "1.21"),
            Stable := false } :=
  ⟨(resolver_exact_match_wins "1.21" [catalogEntry "1.21", catalogEntry "1.21.5"]
      [] "").1 ⟨catalogEntry "1.21", by decide, rfl⟩,
   (resolver_exact_match_wins "1.21" []
      [{ name := "go1.21", isDir := true }, { name := "go1.21.5", isDir := true }]
      "/h/.govm/versions").2.1
    ⟨{ name := "go1.21", isDir := true }, by decide, rfl⟩⟩

/-! ## Claim C1 -/

/-- C1: on a token with no exact match, the resolver treats the token as
a prefix — eligibility means the version starts with the token followed
by a dot; any returned match is an eligible candidate dominating every
eligible candidate in the compareVersions order, a match is returned
whenever an eligible candidate exists, the not-found error is returned
exactly when none is eligible, and the concrete token 1 resolves to
1.20.5 rather than the lexically greatest 1.9.0. -/
theorem resolver_prefix_numeric_greatest (token : String)
    (versions : List GoVersion)
    (hnoex : ∀ v ∈ versions, v.Version ≠ token) :
    (∀ r, findMatchingVersion token versions = .ok r →
        r ∈ versions ∧ goHasPfx (token ++ ".") r.Version = true ∧
        ∀ v ∈ versions, goHasPfx (token ++ ".") v.Version = true →
          compareVersions v.Version r.Version ≤ 0) ∧
    ((∃ v ∈ versions, goHasPfx (token ++ ".") v.Version = true) →
      ∃ r, findMatchingVersion token versions = .ok r) ∧
    ((∀ v ∈ versions, goHasPfx (token ++ ".") v.Version = false) →
      findMatchingVersion token versions =
        .error ("no version matching " ++ token ++ " found")) ∧
    findMatchingVersion "1"
        [catalogEntry "1.19.0", catalogEntry "1.20.5", catalogEntry "1.9.0"] =
      .ok (catalogEntry "1.20.5") := by
  have hfind : versions.find? (fun v => v.Version == token) = none :=
    List.find?_eq_none.mpr (fun v hv => by simp [hnoex v hv])
  have hres : findMatchingVersion token versions =
      (if (versions.foldl (pfxStep (token ++ "."))
            { matched := zeroGoVersion, found := false }).found = false ∧
          goContainsDot token = false then
        finishScan
          (versions.foldl (pfxStep (token ++ "."))
            (versions.foldl (pfxStep (token ++ "."))
              { matched := zeroGoVersion, found := false }))
          ("no version matching " ++ token ++ " found")
      else
        finishScan
          (versions.foldl (pfxStep (token ++ "."))
            { matched := zeroGoVersion, found := false })
          ("no version matching " ++ token ++ " found")) := by
    unfold findMatchingVersion
    rw [hfind]
  refine ⟨?_, ?_, ?_, by rfl⟩
  · intro r hr
    by_cases h1 : (versions.foldl (pfxStep (token ++ "."))
        { matched := zeroGoVersion, found := false }).found = false
    · exfalso
      obtain ⟨heq, hnone⟩ := pfxScan_not_found (token ++ ".") versions _ h1
      rw [hres] at hr
      by_cases hdot : goContainsDot token = false
      · rw [if_pos ⟨h1, hdot⟩, pfxScan_id (token ++ ".") versions hnone] at hr
        unfold finishScan at hr
        rw [if_neg (by simp [h1])] at hr
        cases hr
      · rw [if_neg (by intro hcon; exact hdot hcon.2)] at hr
        unfold finishScan at hr
        rw [if_neg (by simp [h1])] at hr
        cases hr
    · have h1t : (versions.foldl (pfxStep (token ++ "."))
          { matched := zeroGoVersion, found := false }).found = true := by
        cases h : (versions.foldl (pfxStep (token ++ "."))
            { matched := zeroGoVersion, found := false }).found with
        | false => exact absurd h h1
        | true => rfl
      rw [hres, if_neg (by intro hcon; exact h1 hcon.1)] at hr
      unfold finishScan at hr
      rw [if_pos h1t] at hr
      injection hr with hr2
      subst hr2
      rcases pfxScan_provenance (token ++ ".") versions
          { matched := zeroGoVersion, found := false } with heq | ⟨hmem, hp⟩
      · rw [heq] at h1t; cases h1t
      · exact ⟨hmem, hp, pfxScan_max (token ++ ".") versions _⟩
  · rintro ⟨v, hv, helig⟩
    by_cases h1 : (versions.foldl (pfxStep (token ++ "."))
        { matched := zeroGoVersion, found := false }).found = false
    · exfalso
      obtain ⟨_, hnone⟩ := pfxScan_not_found (token ++ ".") versions _ h1
      rw [hnone v hv] at helig
      cases helig
    · have h1t : (versions.foldl (pfxStep (token ++ "."))
          { matched := zeroGoVersion, found := false }).found = true := by
        cases h : (versions.foldl (pfxStep (token ++ "."))
            { matched := zeroGoVersion, found := false }).found with
        | false => exact absurd h h1
        | true => rfl
      refine ⟨(versions.foldl (pfxStep (token ++ "."))
          { matched := zeroGoVersion, found := false }).matched, ?_⟩
      rw [hres, if_neg (by intro hcon; exact h1 hcon.1)]
      unfold finishScan
      rw [if_pos h1t]
  · intro hall
    have hid : versions.foldl (pfxStep (token ++ "."))
        { matched := zeroGoVersion, found := false } =
        { matched := zeroGoVersion, found := false } :=
      pfxScan_id (token ++ ".") versions hall _
    rw [hres]
    by_cases hdot : goContainsDot token = false
    · rw [if_pos ⟨by rw [hid], hdot⟩]
      rw [hid, pfxScan_id (token ++ ".") versions hall]
      rfl
    · rw [if_neg (by intro hcon; exact hdot hcon.2), hid]
      rfl

/-- C1 witness: the resolver output for token 1 over the example catalog
is an eligible candidate dominating both other eligible candidates. -/
theorem resolver_prefix_numeric_greatest_witness :
    catalogEntry "1.20.5" ∈
      [catalogEntry "1.19.0", catalogEntry "1.20.5", catalogEntry "1.9.0"] ∧
    goHasPfx ("1" ++ ".") (catalogEntry "1.20.5").Version = true ∧
    ∀ v ∈ [catalogEntry "1.19.0", catalogEntry "1.20.5", catalogEntry "1.9.0"],
      goHasPfx ("1" ++ ".") v.Version = true →
        compareVersions v.Version (catalogEntry "1.20.5").Version ≤ 0 :=
  (resolver_prefix_numeric_greatest "1"
    [catalogEntry "1.19.0", catalogEntry "1.20.5", catalogEntry "1.9.0"]
    (by decide)).1 (catalogEntry "1.20.5") (by rfl)

/-! ## Claim C7 -/

theorem goHasPfx_append (x : String) : goHasPfx "go" ("go" ++ x) = true := by
  unfold goHasPfx
  rw [String.data_append]
  exact List.isPrefixOf_iff_prefix.mpr (List.prefix_append _ _)

theorem goTrimPfx_append (x : String) : goTrimPfx "go" ("go" ++ x) = x := by
  unfold goTrimPfx
  rw [if_pos (goHasPfx_append x)]
  apply String.ext
  show (("go" ++ x).data.drop ("go".data.length)) = x.data
  rw [String.data_append]
  exact List.drop_left _ _

theorem name_eq_of_goPfx (n : String) (h : goHasPfx "go" n = true) :
    n = "go" ++ goTrimPfx "go" n := by
  unfold goTrimPfx
  rw [if_pos h]
  unfold goHasPfx at h
  obtain ⟨t, ht⟩ := List.isPrefixOf_iff_prefix.mp h
  apply String.ext
  rw [String.data_append]
  show n.data = "go".data ++ n.data.drop "go".data.length
  rw [← ht, List.drop_left]

theorem pathJoin_ne_empty (a b : String) : pathJoin a b ≠ "" := by
  intro h
  have h2 := congrArg String.data h
  unfold pathJoin at h2
  rw [String.data_append, String.data_append] at h2
  simp at h2

/-- Characterization of the installedVersions map built by the scan of
FetchGoVersions, relative to an arbitrary starting map. -/
theorem installedScan_go (dir : String) :
    ∀ (entries : List VerDirEntry) (m : List (String × String)),
      ((entries.map (fun e => e.name)).Nodup) →
      ∀ ver p : String,
        (lookupAssoc
            (entries.foldl
              (fun m e =>
                if e.isDir = true ∧ goHasPfx "go" e.name = true ∧ e.hasBin = true then
                  (m.filter (fun q => q.1 ≠ goTrimPfx "go" e.name)) ++
                    [(goTrimPfx "go" e.name, pathJoin dir e.name)]
                else m)
              m)
            ver = some p ↔
          ((∃ e ∈ entries,
              (e.isDir = true ∧ goHasPfx "go" e.name = true ∧ e.hasBin = true) ∧
              e.name = "go" ++ ver ∧ p = pathJoin dir e.name) ∨
            ((∀ e ∈ entries,
                ¬ ((e.isDir = true ∧ goHasPfx "go" e.name = true ∧ e.hasBin = true) ∧
                  e.name = "go" ++ ver)) ∧
              lookupAssoc m ver = some p))) := by
  intro entries
  induction entries with
  | nil =>
    intro m _ ver p
    simp only [List.foldl_nil, List.not_mem_nil]
    constructor
    · intro h; exact Or.inr ⟨by simp, h⟩
    · intro h
      rcases h with ⟨e, he, _⟩ | ⟨_, h⟩
      · cases he
      · exact h
  | cons e es ih =>
    intro m hnd ver p
    have hnotin : e.name ∉ es.map (fun x => x.name) :=
      (List.nodup_cons.mp (by simpa using hnd)).1
    have hnd2 : (es.map (fun x => x.name)).Nodup :=
      (List.nodup_cons.mp (by simpa using hnd)).2
    simp only [List.foldl_cons]
    by_cases hq : e.isDir = true ∧ goHasPfx "go" e.name = true ∧ e.hasBin = true
    · rw [if_pos hq]
      have hkey : (m.filter (fun q => q.1 ≠ goTrimPfx "go" e.name)) ++
          [(goTrimPfx "go" e.name, pathJoin dir e.name)] =
          writeShim (goTrimPfx "go" e.name) (pathJoin dir e.name) m := rfl
      rw [hkey]
      by_cases hname : e.name = "go" ++ ver
      · have htrim : goTrimPfx "go" e.name = ver := by
          rw [hname]; exact goTrimPfx_append ver
        rw [ih (writeShim (goTrimPfx "go" e.name) (pathJoin dir e.name) m) hnd2 ver p]
        have hesno : ∀ x ∈ es,
            ¬ ((x.isDir = true ∧ goHasPfx "go" x.name = true ∧ x.hasBin = true) ∧
              x.name = "go" ++ ver) := by
          intro x hx hcon
          exact hnotin (List.mem_map.mpr ⟨x, hx, hcon.2.trans hname.symm⟩)
        constructor
        · intro h
          rcases h with ⟨x, hx, hxq, hxname, hxp⟩ | ⟨_, hlook⟩
          · exact absurd ⟨hxq, hxname⟩ (hesno x hx)
          · rw [htrim] at hlook
            rw [show lookupAssoc (writeShim ver (pathJoin dir e.name) m) ver =
                lookupShim ver (writeShim ver (pathJoin dir e.name) m) from rfl,
              lookupShim_writeShim_self] at hlook
            injection hlook with hlook
            exact Or.inl ⟨e, List.mem_cons_self e es, hq, hname, hlook.symm⟩
        · intro h
          rcases h with ⟨x, hx, hxq, hxname, hxp⟩ | ⟨hno, _⟩
          · rcases List.mem_cons.mp hx with hxe | hxes
            · subst hxe
              refine Or.inr ⟨hesno, ?_⟩
              rw [htrim,
                show lookupAssoc (writeShim ver (pathJoin dir x.name) m) ver =
                  lookupShim ver (writeShim ver (pathJoin dir x.name) m) from rfl,
                lookupShim_writeShim_self, hxp]
            · exact absurd ⟨hxq, hxname⟩ (hesno x hxes)
          · exact absurd ⟨hq, hname⟩ (hno e (List.mem_cons_self e es))
      · have htrim : goTrimPfx "go" e.name ≠ ver := by
          intro hcon
          exact hname (by rw [name_eq_of_goPfx e.name hq.2.1, hcon])
        rw [ih (writeShim (goTrimPfx "go" e.name) (pathJoin dir e.name) m) hnd2 ver p]
        have hlooks : lookupAssoc (writeShim (goTrimPfx "go" e.name)
            (pathJoin dir e.name) m) ver = lookupAssoc m ver := by
          rw [show lookupAssoc (writeShim (goTrimPfx "go" e.name)
                (pathJoin dir e.name) m) ver =
              lookupShim ver (writeShim (goTrimPfx "go" e.name)
                (pathJoin dir e.name) m) from rfl,
            lookupShim_writeShim_other _ _ _ _ (Ne.symm (Ne.symm htrim)).symm]
          rfl
        constructor
        · intro h
          rcases h with ⟨x, hx, hxq, hxname, hxp⟩ | ⟨hno, hlook⟩
          · exact Or.inl ⟨x, List.mem_cons_of_mem e hx, hxq, hxname, hxp⟩
          · refine Or.inr ⟨?_, by rw [← hlooks]; exact hlook⟩
            intro x hx
            rcases List.mem_cons.mp hx with hxe | hxes
            · subst hxe; exact fun hc => hname hc.2
            · exact hno x hxes
        · intro h
          rcases h with ⟨x, hx, hxq, hxname, hxp⟩ | ⟨hno, hlook⟩
          · rcases List.mem_cons.mp hx with hxe | hxes
            · subst hxe; exact absurd hxname hname
            · exact Or.inl ⟨x, hxes, hxq, hxname, hxp⟩
          · refine Or.inr ⟨fun x hx => hno x (List.mem_cons_of_mem e hx), ?_⟩
            rw [hlooks]
            exact hlook
    · rw [if_neg hq]
      rw [ih m hnd2 ver p]
      constructor
      · intro h
        rcases h with ⟨x, hx, hxq, hxname, hxp⟩ | ⟨hno, hlook⟩
        · exact Or.inl ⟨x, List.mem_cons_of_mem e hx, hxq, hxname, hxp⟩
        · refine Or.inr ⟨?_, hlook⟩
          intro x hx
          rcases List.mem_cons.mp hx with hxe | hxes
          · subst hxe; exact fun hc => hq hc.1
          · exact hno x hxes
      · intro h
        rcases h with ⟨x, hx, hxq, hxname, hxp⟩ | ⟨hno, hlook⟩
        · rcases List.mem_cons.mp hx with hxe | hxes
          · subst hxe; exact absurd hxq hq
          · exact Or.inl ⟨x, hxes, hxq, hxname, hxp⟩
        · exact Or.inr ⟨fun x hx => hno x (List.mem_cons_of_mem e hx), hlook⟩

/-- Every record built by FetchGoVersions carries Installed and Path
exactly as the installedVersions map dictates for its version string. -/
theorem buildRecords_installed (releases : List Release)
    (installed : List (String × String)) (active os arch : String) :
    ∀ r ∈ buildRecords releases installed active os arch,
      (r.Installed = true → lookupAssoc installed r.Version = some r.Path) ∧
      (r.Installed = false →
        lookupAssoc installed r.Version = none ∧ r.Path = "") := by
  have hstep : ∀ (acc : List GoVersion) (rel : Release) (r : GoVersion),
      r ∈ buildStep installed active os arch acc rel →
      r ∈ acc ∨
        ((r.Installed = true → lookupAssoc installed r.Version = some r.Path) ∧
         (r.Installed = false →
           lookupAssoc installed r.Version = none ∧ r.Path = "")) := by
    intro acc rel r hr
    unfold buildStep at hr
    cases hfile : rel.files.find? (fun f => f.fos == os ∧ f.arch == arch) with
    | none => rw [hfile] at hr; exact Or.inl hr
    | some file =>
      rw [hfile] at hr
      rcases List.mem_append.mp hr with hacc | hnew
      · exact Or.inl hacc
      · right
        have hr2 := List.mem_singleton.mp hnew
        subst hr2
        cases hlook : lookupAssoc installed (goTrimPfx "go" rel.version) with
        | some path =>
          by_cases hact : (active == goTrimPfx "go" rel.version) = true <;>
            simp [hact, hlook]
        | none =>
          by_cases hact : (active == goTrimPfx "go" rel.version) = true <;>
            simp [hact, hlook]
  have hgen : ∀ (rels : List Release) (acc : List GoVersion),
      (∀ r ∈ acc,
        (r.Installed = true → lookupAssoc installed r.Version = some r.Path) ∧
        (r.Installed = false →
          lookupAssoc installed r.Version = none ∧ r.Path = "")) →
      ∀ r ∈ rels.foldl (buildStep installed active os arch) acc,
        (r.Installed = true → lookupAssoc installed r.Version = some r.Path) ∧
        (r.Installed = false →
          lookupAssoc installed r.Version = none ∧ r.Path = "") := by
    intro rels
    induction rels with
    | nil => intro acc hacc r hr; exact hacc r hr
    | cons rel rest ih =>
      intro acc hacc r hr
      simp only [List.foldl_cons] at hr
      refine ih (buildStep installed active os arch acc rel) ?_ r hr
      intro x hx
      rcases hstep acc rel x hx with hxa | hxp
      · exact hacc x hxa
      · exact hxp
  exact hgen releases [] (by simp)

/-- C7: in every successful catalog fetch, a record is marked Installed
with a non-empty path exactly when the versions directory holds, at scan
time, a go-prefixed subdirectory named after the record's version with
the tool binary present at its fixed relative path; a directory present
without the binary never marks its record Installed. -/
theorem installed_iff_binary_present (releases : List Release)
    (entries : List VerDirEntry) (dir active os arch : String)
    (hnd : (entries.map (fun e => e.name)).Nodup) :
    ∀ r ∈ buildRecords releases (installedScan dir entries) active os arch,
      (r.Installed = true ∧ r.Path ≠ "") ↔
        ∃ e ∈ entries, e.isDir = true ∧ e.hasBin = true ∧
          e.name = "go" ++ r.Version := by
  intro r hr
  obtain ⟨hinst, hninst⟩ :=
    buildRecords_installed releases (installedScan dir entries) active os arch r hr
  constructor
  · rintro ⟨hi, _⟩
    have hlook := hinst hi
    have := (installedScan_go dir entries [] hnd r.Version r.Path).mp hlook
    rcases this with ⟨e, he, hq, hname, _⟩ | ⟨_, hm⟩
    · exact ⟨e, he, hq.1, hq.2.2, hname⟩
    · cases hm
  · rintro ⟨e, he, hd, hb, hname⟩
    have hpfx : goHasPfx "go" e.name = true := by
      rw [hname]; exact goHasPfx_append r.Version
    have hlook : lookupAssoc (installedScan dir entries) r.Version =
        some (pathJoin dir e.name) :=
      (installedScan_go dir entries [] hnd r.Version (pathJoin dir e.name)).mpr
        (Or.inl ⟨e, he, ⟨hd, hpfx, hb⟩, hname, rfl⟩)
    cases hi : r.Installed with
    | false =>
      exfalso
      obtain ⟨hnone, _⟩ := hninst hi
      rw [hnone] at hlook
      cases hlook
    | true =>
      refine ⟨rfl, ?_⟩
      have := hinst hi
      rw [hlook] at this
      injection this with hpath
      rw [← hpath]
      exact pathJoin_ne_empty dir e.name

/-- C7 witness: a catalog with versions 1.21.0 and 1.20.0 scanned against
a directory where go1.21.0 holds the binary marks the record of 1.21.0
Installed at its path. -/
theorem installed_iff_binary_present_witness :
    ({ Version := "1.21.0", Filename := "go1.21.0.linux-amd64.tar.gz",
       URL := "https://go.dev/dl/go1.21.0.linux-amd64.tar.gz",
       Installed := true, Active := true,
       Path := "/h/.govm/versions/go1.21.0", Stable := true } : GoVersion).Installed =
        true ∧
      ({ Version := "1.21.0", Filename := "go1.21.0.linux-amd64.tar.gz",
         URL := "https://go.dev/dl/go1.21.0.linux-amd64.tar.gz",
         Installed := true, Active := true,
         Path := "/h/.govm/versions/go1.21.0", Stable := true } : GoVersion).Path ≠
        "" :=
  (installed_iff_binary_present
    [{ version := "go1.21.0", stable := true,
       files := [{ filename := "go1.21.0.linux-amd64.tar.gz",
                   fos := "linux", arch := "amd64" }] },
     { version := "go1.20.0", stable := true,
       files := [{ filename := "go1.20.0.linux-amd64.tar.gz",
                   fos := "linux", arch := "amd64" }] }]
    [{ name := "go1.21.0", isDir := true, hasBin := true },
     { name := "go1.20.0", isDir := true, hasBin := false }]
    "/h/.govm/versions" "1.21.0" "linux" "amd64" (by decide)
    { Version := "1.21.0", Filename := "go1.21.0.linux-amd64.tar.gz",
      URL := "https://go.dev/dl/go1.21.0.linux-amd64.tar.gz",
      Installed := true, Active := true,
      Path := "/h/.govm/versions/go1.21.0", Stable := true }
    (by decide)).mpr
    ⟨{ name := "go1.21.0", isDir := true, hasBin := true }, by decide, rfl, rfl,
      by decide⟩

/-! ## Claim C3: groundwork on canonical numerals -/

theorem char_toNat_inj (c d : Char) (h : c.toNat = d.toNat) : c = d := by
  apply Char.ext
  exact UInt32.ext h

theorem char_digit_bounds (c : Char) (h : c.isDigit = true) :
    48 ≤ c.toNat ∧ c.toNat ≤ 57 := by
  unfold Char.isDigit at h
  rw [Bool.and_eq_true] at h
  obtain ⟨h1, h2⟩ := h
  rw [decide_eq_true_eq] at h1 h2
  exact ⟨h1, h2⟩

theorem digitsVal_foldl_acc (l : List Char) :
    ∀ a : Nat,
      l.foldl (fun a c => 10 * a + (c.toNat - 48)) a =
        a * 10 ^ l.length + l.foldl (fun a c => 10 * a + (c.toNat - 48)) 0 := by
  induction l with
  | nil => intro a; simp
  | cons c t ih =>
    intro a
    rw [List.foldl_cons, List.foldl_cons, ih (10 * a + (c.toNat - 48)),
      ih (10 * 0 + (c.toNat - 48))]
    simp only [List.length_cons]
    ring

theorem digitsVal_cons (c : Char) (t : List Char) :
    digitsVal (c :: t) = (c.toNat - 48) * 10 ^ t.length + digitsVal t := by
  unfold digitsVal
  rw [List.foldl_cons, digitsVal_foldl_acc t (10 * 0 + (c.toNat - 48))]
  ring

theorem digitsVal_lt (l : List Char) (h : l.all Char.isDigit = true) :
    digitsVal l < 10 ^ l.length := by
  induction l with
  | nil => simp [digitsVal]
  | cons c t ih =>
    rw [List.all_cons, Bool.and_eq_true] at h
    have hd := char_digit_bounds c h.1
    have ht := ih h.2
    rw [digitsVal_cons, List.length_cons, pow_succ]
    have h9 : c.toNat - 48 ≤ 9 := by omega
    have hmul : (c.toNat - 48) * 10 ^ t.length ≤ 9 * 10 ^ t.length :=
      Nat.mul_le_mul_right _ h9
    have hpow : 0 < 10 ^ t.length := Nat.pos_pow_of_pos _ (by omega)
    omega

theorem digitsVal_head_lower (c : Char) (t : List Char)
    (hd : c.isDigit = true) (hc : c ≠ '0') :
    10 ^ t.length ≤ digitsVal (c :: t) := by
  have hb := char_digit_bounds c hd
  have h1 : 49 ≤ c.toNat := by
    rcases Nat.lt_or_ge c.toNat 49 with hlt | hge
    · exfalso
      have h48 : c.toNat = 48 := by omega
      exact hc (char_toNat_inj c '0' (by rw [h48]; rfl))
    · exact hge
  rw [digitsVal_cons]
  have hmul : 1 * 10 ^ t.length ≤ (c.toNat - 48) * 10 ^ t.length :=
    Nat.mul_le_mul_right _ (by omega)
  omega

theorem mul_pow_add_inj (P d1 d2 r1 r2 : Nat) (h1 : r1 < P) (h2 : r2 < P)
    (he : d1 * P + r1 = d2 * P + r2) : d1 = d2 ∧ r1 = r2 := by
  have hP : 0 < P := Nat.pos_of_ne_zero (by omega)
  have hdiv : (d1 * P + r1) / P = d1 := by
    rw [Nat.mul_comm d1 P, Nat.mul_add_div hP, Nat.div_eq_of_lt h1]
    omega
  have hdiv2 : (d2 * P + r2) / P = d2 := by
    rw [Nat.mul_comm d2 P, Nat.mul_add_div hP, Nat.div_eq_of_lt h2]
    omega
  have hd : d1 = d2 := by rw [← hdiv, ← hdiv2, he]
  subst hd
  exact ⟨rfl, by omega⟩

/-- A canonical numeral of a strictly greater length has a strictly
greater value. -/
theorem canonComp_len_lt (l1 l2 : List Char) (hne1 : l1 ≠ [])
    (hdig1 : l1.all Char.isDigit = true) (hne2 : l2 ≠ [])
    (hdig2 : l2.all Char.isDigit = true)
    (hz2 : 2 ≤ l2.length → l2.headD '0' ≠ '0')
    (hlt : l1.length < l2.length) : digitsVal l1 < digitsVal l2 := by
  cases l2 with
  | nil => exact absurd rfl hne2
  | cons c2 t2 =>
    have hlen1 : 1 ≤ l1.length := by
      cases l1 with
      | nil => exact absurd rfl hne1
      | cons _ _ => simp
    have hl2 : 2 ≤ (c2 :: t2).length := by
      simp only [List.length_cons] at hlt ⊢
      omega
    have hc2 : c2 ≠ '0' := by simpa using hz2 hl2
    have hd2 : c2.isDigit = true := by
      rw [List.all_cons, Bool.and_eq_true] at hdig2
      exact hdig2.1
    have hlow := digitsVal_head_lower c2 t2 hd2 hc2
    have hup := digitsVal_lt l1 hdig1
    have hle : 10 ^ l1.length ≤ 10 ^ t2.length :=
      Nat.pow_le_pow_right (by omega)
        (by simp only [List.length_cons] at hlt; omega)
    omega

/-- Equal-length digit strings with equal values are equal. -/
theorem digits_inj_of_len (l1 : List Char) :
    ∀ l2 : List Char, l1.all Char.isDigit = true → l2.all Char.isDigit = true →
      l1.length = l2.length → digitsVal l1 = digitsVal l2 → l1 = l2 := by
  induction l1 with
  | nil =>
    intro l2 _ _ hlen _
    cases l2 with
    | nil => rfl
    | cons c2 t2 => simp at hlen
  | cons c1 t1 ih =>
    intro l2 hdig1 hdig2 hlen hv
    cases l2 with
    | nil => simp at hlen
    | cons c2 t2 =>
      rw [List.all_cons, Bool.and_eq_true] at hdig1 hdig2
      have hlent : t1.length = t2.length := by
        simp only [List.length_cons] at hlen
        omega
      rw [digitsVal_cons, digitsVal_cons, hlent] at hv
      have hb1' : digitsVal t1 < 10 ^ t2.length := by
        rw [← hlent]
        exact digitsVal_lt t1 hdig1.2
      obtain ⟨hdeq, hteq⟩ := mul_pow_add_inj (10 ^ t2.length) _ _ _ _
        hb1' (digitsVal_lt t2 hdig2.2) hv
      have hb1 := char_digit_bounds c1 hdig1.1
      have hb2 := char_digit_bounds c2 hdig2.1
      have hceq : c1 = c2 := char_toNat_inj c1 c2 (by omega)
      rw [hceq, ih t2 hdig1.2 hdig2.2 hlent hteq]

/-- Canonical numerals are determined by their values. -/
theorem canonComp_inj (l1 l2 : List Char) (h1 : CanonComp l1) (h2 : CanonComp l2)
    (hv : digitsVal l1 = digitsVal l2) : l1 = l2 := by
  obtain ⟨hne1, hdig1, hz1, _⟩ := h1
  obtain ⟨hne2, hdig2, hz2, _⟩ := h2
  have hlen : l1.length = l2.length := by
    rcases Nat.lt_trichotomy l1.length l2.length with hlt | heq | hgt
    · exact absurd hv
        (Nat.ne_of_lt (canonComp_len_lt l1 l2 hne1 hdig1 hne2 hdig2 hz2 hlt))
    · exact heq
    · exact absurd hv.symm
        (Nat.ne_of_lt (canonComp_len_lt l2 l1 hne2 hdig2 hne1 hdig1 hz1 hgt))
  exact digits_inj_of_len l1 l2 hdig1 hdig2 hlen hv

/-! ## splitDot reconstruction and lexical comparison lemmas -/

theorem splitDot_ne_nil (l : List Char) : splitDot l ≠ [] := by
  cases l with
  | nil => simp [splitDot]
  | cons c cs =>
    unfold splitDot
    by_cases hc : c = '.'
    · rw [if_pos hc]; simp
    · rw [if_neg hc]
      cases h : splitDot cs <;> simp

theorem joinDot_splitDot (l : List Char) : joinDot (splitDot l) = l := by
  induction l with
  | nil => rfl
  | cons c cs ih =>
    unfold splitDot
    by_cases hc : c = '.'
    · rw [if_pos hc]
      cases h : splitDot cs with
      | nil => exact absurd h (splitDot_ne_nil cs)
      | cons x xs =>
        rw [h] at ih
        subst hc
        show '.' :: joinDot (x :: xs) = '.' :: cs
        rw [ih]
    · rw [if_neg hc]
      cases h : splitDot cs with
      | nil => exact absurd h (splitDot_ne_nil cs)
      | cons x xs =>
        rw [h] at ih
        cases xs with
        | nil =>
          show c :: x = c :: cs
          rw [show joinDot [x] = x from rfl] at ih
          rw [ih]
        | cons y ys =>
          show (c :: x) ++ '.' :: joinDot (y :: ys) = c :: cs
          rw [← ih]
          rfl

theorem splitDot_inj (l1 l2 : List Char) (h : splitDot l1 = splitDot l2) :
    l1 = l2 := by
  rw [← joinDot_splitDot l1, ← joinDot_splitDot l2, h]

theorem ltChars_irrefl (l : List Char) : ltChars l l = false := by
  induction l with
  | nil => rfl
  | cons c cs ih => simp [ltChars, ih]

theorem ltChars_self_append (l t : List Char) (h : t ≠ []) :
    ltChars l (l ++ t) = true := by
  induction l with
  | nil => cases t with | nil => exact absurd rfl h | cons _ _ => rfl
  | cons c cs ih => simp [ltChars, ih]

theorem ltChars_append_self (l t : List Char) :
    ltChars (l ++ t) l = false := by
  induction l with
  | nil => cases t <;> rfl
  | cons c cs ih => simp [ltChars, ih]

/-- Atoi on a canonical numeral is exactly its value. -/
theorem atoiChars_canon (l : List Char) (h : CanonComp l) :
    atoiChars l = (digitsVal l : Int) := by
  obtain ⟨hne, hdig, _, hlt⟩ := h
  cases l with
  | nil => exact absurd rfl hne
  | cons c rest =>
    rw [List.all_cons, Bool.and_eq_true] at hdig
    have hcd := char_digit_bounds c hdig.1
    have hcm : c ≠ '-' := by
      intro hcon
      rw [hcon] at hcd
      revert hcd
      decide
    have hcp : c ≠ '+' := by
      intro hcon
      rw [hcon] at hcd
      revert hcd
      decide
    show (if c = '-' then
        if rest ≠ [] ∧ rest.all Char.isDigit then
          max (-(2 ^ 63)) (-(digitsVal rest : Int))
        else 0
      else if c = '+' then
        if rest ≠ [] ∧ rest.all Char.isDigit then
          min (2 ^ 63 - 1) (digitsVal rest : Int)
        else 0
      else
        if (c :: rest).all Char.isDigit then
          min (2 ^ 63 - 1) (digitsVal (c :: rest) : Int)
        else 0) = (digitsVal (c :: rest) : Int)
    rw [if_neg hcm, if_neg hcp,
      if_pos (by rw [List.all_cons, Bool.and_eq_true]; exact hdig)]
    have hle : (digitsVal (c :: rest) : Int) ≤ 2 ^ 63 - 1 := by
      have := hlt
      push_cast
      omega
    exact min_eq_right hle

theorem keyCmp_cons_same (x : Int) (xs ys : List Int) :
    keyCmp (x :: xs) (x :: ys) = keyCmp xs ys := by
  simp [keyCmp]

theorem keyCmp_cons_lt (x y : Int) (xs ys : List Int) (h : x < y) :
    keyCmp (x :: xs) (y :: ys) = -1 := by
  simp [keyCmp, h]

theorem keyCmp_cons_gt (x y : Int) (xs ys : List Int) (h : y < x) :
    keyCmp (x :: xs) (y :: ys) = 1 := by
  simp [keyCmp, not_lt.mpr h.le, h]

/-- On canonical version strings the catalog comparator agrees exactly
with compareVersions reporting strictly greater. -/
theorem catalogLess_eq_cmp (v1 v2 : String) (h1 : canonVersion v1)
    (h2 : canonVersion v2) :
    (catalogLess v1 v2 = true ↔ compareVersions v1 v2 = 1) := by
  obtain ⟨hlen1, hcan1⟩ := h1
  obtain ⟨hlen2, hcan2⟩ := h2
  rw [compareVersions_eq_keyCmp]
  unfold catalogLess keyOf
  rcases hP1 : splitDot v1.data with _ | ⟨a1, r1⟩
  · exact absurd hP1 (splitDot_ne_nil _)
  rcases hP2 : splitDot v2.data with _ | ⟨a2, r2⟩
  · exact absurd hP2 (splitDot_ne_nil _)
  rw [hP1] at hlen1 hcan1
  rw [hP2] at hlen2 hcan2
  have hv1 : v1.data = joinDot (a1 :: r1) := by rw [← hP1, joinDot_splitDot]
  have hv2 : v2.data = joinDot (a2 :: r2) := by rw [← hP2, joinDot_splitDot]
  rw [hv1, hv2]
  have ha1 : CanonComp a1 := hcan1 a1 (by simp)
  have ha2 : CanonComp a2 := hcan2 a2 (by simp)
  simp only [List.getD_cons_zero, List.map_cons,
    atoiChars_canon a1 ha1, atoiChars_canon a2 ha2]
  by_cases hmaj : digitsVal a1 = digitsVal a2
  · -- equal majors: the canonical components coincide
    have haeq : a1 = a2 := canonComp_inj a1 a2 ha1 ha2 hmaj
    subst haeq
    rw [if_neg (by
      rintro ⟨-, -, hne⟩
      exact hne rfl)]
    rw [keyCmp_cons_same]
    rcases r1 with _ | ⟨b1, s1⟩
    · rcases r2 with _ | ⟨b2, s2⟩
      · -- both single-component: identical strings
        rw [if_neg (by rintro ⟨hl, -, -⟩; simp at hl)]
        rw [if_neg (by rintro ⟨hl, -⟩; simp at hl)]
        rw [ltChars_irrefl]
        simp [keyCmp]
      · -- v1 has one component, v2 more: v1 is a strict prefix
        rw [if_neg (by rintro ⟨hl, -, -⟩; simp at hl)]
        rw [if_neg (by rintro ⟨hl, -⟩; simp at hl)]
        have hj : joinDot (a1 :: b2 :: s2) = a1 ++ '.' :: joinDot (b2 :: s2) := rfl
        rw [hj, show joinDot [a1] = a1 from rfl, ltChars_append_self]
        simp [keyCmp]
    · rcases r2 with _ | ⟨b2, s2⟩
      · -- v2 has one component, v1 more: v2 is a strict prefix of v1
        rw [if_neg (by rintro ⟨-, hl, -⟩; simp at hl)]
        rw [if_neg (by rintro ⟨-, hl⟩; simp at hl)]
        have hj : joinDot (a1 :: b1 :: s1) = a1 ++ '.' :: joinDot (b1 :: s1) := rfl
        rw [hj, show joinDot [a1] = a1 from rfl,
          ltChars_self_append _ _ (by simp)]
        simp [keyCmp]
      · -- both have a second component
        have hb1 : CanonComp b1 := hcan1 b1 (by simp)
        have hb2 : CanonComp b2 := hcan2 b2 (by simp)
        simp only [List.getD_cons_succ, List.getD_cons_zero, List.map_cons,
          atoiChars_canon b1 hb1, atoiChars_canon b2 hb2]
        by_cases hmin : digitsVal b1 = digitsVal b2
        · -- equal minors: the canonical components coincide
          have hbeq : b1 = b2 := canonComp_inj b1 b2 hb1 hb2 hmin
          subst hbeq
          rw [if_neg (by
            rintro ⟨-, -, hne⟩
            exact hne rfl)]
          rw [keyCmp_cons_same]
          rcases s1 with _ | ⟨c1, u1⟩
          · rcases s2 with _ | ⟨c2, u2⟩
            · -- both two-component: identical strings
              rw [if_neg (by rintro ⟨hl, -⟩; simp at hl)]
              rw [ltChars_irrefl]
              simp [keyCmp]
            · -- two against three components: strict prefix
              have hu2 : u2 = [] := by
                simp only [List.length_cons] at hlen2
                exact List.length_eq_zero.mp (by omega)
              subst hu2
              rw [if_neg (by rintro ⟨hl, -⟩; simp at hl)]
              have hj1 : joinDot (a1 :: b1 :: [c2]) =
                  (a1 ++ '.' :: b1) ++ '.' :: c2 := by
                show a1 ++ '.' :: (b1 ++ '.' :: c2) = (a1 ++ '.' :: b1) ++ '.' :: c2
                simp
              have hj2 : joinDot (a1 :: [b1]) = a1 ++ '.' :: b1 := rfl
              rw [hj1, hj2, ltChars_append_self]
              simp [keyCmp]
          · rcases s2 with _ | ⟨c2, u2⟩
            · -- three against two components: v2 is a strict prefix
              have hu1 : u1 = [] := by
                simp only [List.length_cons] at hlen1
                exact List.length_eq_zero.mp (by omega)
              subst hu1
              rw [if_neg (by rintro ⟨-, hl⟩; simp at hl)]
              have hj1 : joinDot (a1 :: b1 :: [c1]) =
                  (a1 ++ '.' :: b1) ++ '.' :: c1 := by
                show a1 ++ '.' :: (b1 ++ '.' :: c1) = (a1 ++ '.' :: b1) ++ '.' :: c1
                simp
              have hj2 : joinDot (a1 :: [b1]) = a1 ++ '.' :: b1 := rfl
              rw [hj1, hj2, ltChars_self_append _ _ (by simp)]
              simp [keyCmp]
            · -- both have three components: the patch branch decides
              have hu1 : u1 = [] := by
                simp only [List.length_cons] at hlen1
                exact List.length_eq_zero.mp (by omega)
              have hu2 : u2 = [] := by
                simp only [List.length_cons] at hlen2
                exact List.length_eq_zero.mp (by omega)
              subst hu1
              subst hu2
              have hc1 : CanonComp c1 := hcan1 c1 (by simp)
              have hc2 : CanonComp c2 := hcan2 c2 (by simp)
              rw [if_pos ⟨by simp, by simp⟩]
              simp only [List.getD_cons_succ, List.getD_cons_zero,
                List.map_cons, List.map_nil,
                atoiChars_canon c1 hc1, atoiChars_canon c2 hc2]
              rcases lt_trichotomy (digitsVal c1 : Int) (digitsVal c2 : Int)
                with hlt | heq | hgt
              · rw [keyCmp_cons_lt _ _ _ _ hlt]
                constructor
                · intro hc
                  rw [decide_eq_true_eq] at hc
                  omega
                · intro hc
                  norm_num at hc
              · rw [heq, keyCmp_cons_same]
                constructor
                · intro hc
                  rw [decide_eq_true_eq] at hc
                  omega
                · intro hc
                  simp [keyCmp] at hc
              · rw [keyCmp_cons_gt _ _ _ _ hgt]
                constructor
                · intro _
                  rfl
                · intro _
                  rw [decide_eq_true_eq]
                  exact hgt
        · -- minors differ numerically: the minor branch decides both sides
          rw [if_pos ⟨by simp, by simp, by
            intro hc
            exact hmin (by exact_mod_cast hc)⟩]
          rcases lt_trichotomy (digitsVal b1 : Int) (digitsVal b2 : Int)
            with hlt | heq | hgt
          · rw [keyCmp_cons_lt _ _ _ _ hlt]
            constructor
            · intro hc
              rw [decide_eq_true_eq] at hc
              omega
            · intro hc
              norm_num at hc
          · exact absurd (by exact_mod_cast heq) hmin
          · rw [keyCmp_cons_gt _ _ _ _ hgt]
            constructor
            · intro _
              rfl
            · intro _
              rw [decide_eq_true_eq]
              exact hgt
  · -- majors differ numerically: the major branch decides both sides
    rw [if_pos ⟨by simp, by simp, by
      intro hc
      exact hmaj (by exact_mod_cast hc)⟩]
    rcases lt_trichotomy (digitsVal a1 : Int) (digitsVal a2 : Int)
      with hlt | heq | hgt
    · rw [keyCmp_cons_lt _ _ _ _ hlt]
      constructor
      · intro hc
        rw [decide_eq_true_eq] at hc
        omega
      · intro hc
        norm_num at hc
    · exact absurd (by exact_mod_cast heq) hmaj
    · rw [keyCmp_cons_gt _ _ _ _ hgt]
      constructor
      · intro _
        rfl
      · intro _
        rw [decide_eq_true_eq]
        exact hgt

theorem map_atoi_inj (P1 : List (List Char)) :
    ∀ P2 : List (List Char), (∀ p ∈ P1, CanonComp p) → (∀ p ∈ P2, CanonComp p) →
      P1.map atoiChars = P2.map atoiChars → P1 = P2 := by
  induction P1 with
  | nil =>
    intro P2 _ _ hm
    cases P2 with
    | nil => rfl
    | cons _ _ => simp at hm
  | cons x xs ih =>
    intro P2 hc1 hc2 hm
    cases P2 with
    | nil => simp at hm
    | cons y ys =>
      simp only [List.map_cons, List.cons.injEq] at hm
      have hx : CanonComp x := hc1 x (by simp)
      have hy : CanonComp y := hc2 y (by simp)
      have hv : digitsVal x = digitsVal y := by
        have := hm.1
        rw [atoiChars_canon x hx, atoiChars_canon y hy] at this
        exact_mod_cast this
      rw [canonComp_inj x y hx hy hv,
        ih ys (fun p hp => hc1 p (by simp [hp])) (fun p hp => hc2 p (by simp [hp]))
          hm.2]

/-- On canonical version strings, a compareVersions tie forces equality. -/
theorem canon_cmp_eq (v1 v2 : String) (h1 : canonVersion v1)
    (h2 : canonVersion v2) (h : compareVersions v1 v2 = 0) : v1 = v2 := by
  rw [compareVersions_eq_keyCmp, keyCmp_eq_zero_iff] at h
  unfold keyOf at h
  have hP := map_atoi_inj (splitDot v1.data) (splitDot v2.data) h1.2 h2.2 h
  exact String.ext (splitDot_inj _ _ hP)

/-! ## Claim C3: statements -/

/-- C3 counterexample: the comparator is not a strict total order on
distinct version strings. The well-formed distinct strings 1.2.3.4 and
1.2.3.5 are mutually unordered — the promised lexical tie-break is never
reached once both strings have more than two components — and on
malformed components the comparator even admits a strict cycle. -/
theorem catalog_order_not_total_cex :
    ("1.2.3.4" : String) ≠ "1.2.3.5" ∧
    catalogLess "1.2.3.4" "1.2.3.5" = false ∧
    catalogLess "1.2.3.5" "1.2.3.4" = false ∧
    catalogLess "1.1.10" "1.1" = true ∧
    catalogLess "1.1" "1.01.20" = true ∧
    catalogLess "1.01.20" "1.1.10" = true := by
  refine ⟨by decide, by rfl, by rfl, by rfl, by rfl, by rfl⟩

/-- C3, amended: restricted to canonical version strings — one to three
components, each a decimal numeral without leading zeros and below 2^63 —
the catalog comparator is a strict total order, descending: it holds
exactly when compareVersions reports strictly greater (component-wise
integer comparison with the fewer-component string lower on ties), on
distinct strings exactly one direction holds, the order is transitive,
and 1.21.3 sorts before 1.21, which sorts before 1.9.9. -/
theorem catalog_order_strict_total_on_canonical (v1 v2 v3 : String)
    (h1 : canonVersion v1) (h2 : canonVersion v2) (h3 : canonVersion v3) :
    (catalogLess v1 v2 = true ↔ compareVersions v1 v2 = 1) ∧
    (v1 ≠ v2 → (catalogLess v1 v2 = true ↔ catalogLess v2 v1 = false)) ∧
    (catalogLess v1 v2 = true → catalogLess v2 v3 = true →
      catalogLess v1 v3 = true) ∧
    (catalogLess "1.21.3" "1.21" = true ∧ catalogLess "1.21" "1.9.9" = true) := by
  have e12 := catalogLess_eq_cmp v1 v2 h1 h2
  have e21 := catalogLess_eq_cmp v2 v1 h2 h1
  have e23 := catalogLess_eq_cmp v2 v3 h2 h3
  have e13 := catalogLess_eq_cmp v1 v3 h1 h3
  have hneg12 : compareVersions v1 v2 = -compareVersions v2 v1 :=
    compareVersions_neg _ _
  have hcases12 : compareVersions v1 v2 = -1 ∨ compareVersions v1 v2 = 0 ∨
      compareVersions v1 v2 = 1 := by
    rw [compareVersions_eq_keyCmp]
    exact keyCmp_cases _ _
  refine ⟨e12, ?_, ?_, by constructor <;> rfl⟩
  · intro hne
    have hzero : compareVersions v1 v2 ≠ 0 := fun hc =>
      hne (canon_cmp_eq v1 v2 h1 h2 hc)
    constructor
    · intro hl
      have hgt := e12.mp hl
      cases hb : catalogLess v2 v1 with
      | false => rfl
      | true =>
        have := e21.mp hb
        omega
    · intro hf
      rcases hcases12 with hm | hm | hm
      · exfalso
        have h21 : compareVersions v2 v1 = 1 := by omega
        rw [e21.mpr h21] at hf
        cases hf
      · exact absurd hm hzero
      · exact e12.mpr hm
  · intro h12 h23
    have hm12 := e12.mp h12
    have hm23 := e23.mp h23
    apply e13.mpr
    rw [compareVersions_eq_keyCmp] at hm12 hm23 ⊢
    have h21 : keyCmp (keyOf v2.data) (keyOf v1.data) = -1 := by
      have := keyCmp_neg (keyOf v2.data) (keyOf v1.data)
      omega
    have h32 : keyCmp (keyOf v3.data) (keyOf v2.data) = -1 := by
      have := keyCmp_neg (keyOf v3.data) (keyOf v2.data)
      omega
    have h31 := keyCmp_trans_neg _ _ _ h32 h21
    have := keyCmp_neg (keyOf v1.data) (keyOf v3.data)
    omega

/-- C3 witness: the canonical strings of the specification's example
chain instantiate the amended order theorem. -/
theorem catalog_order_strict_total_on_canonical_witness :
    (catalogLess "1.21.3" "1.21" = true ↔ compareVersions "1.21.3" "1.21" = 1) ∧
    (("1.21.3" : String) ≠ "1.21" →
      (catalogLess "1.21.3" "1.21" = true ↔ catalogLess "1.21" "1.21.3" = false)) ∧
    (catalogLess "1.21.3" "1.21" = true → catalogLess "1.21" "1.9.9" = true →
      catalogLess "1.21.3" "1.9.9" = true) ∧
    (catalogLess "1.21.3" "1.21" = true ∧ catalogLess "1.21" "1.9.9" = true) :=
  catalog_order_strict_total_on_canonical "1.21.3" "1.21" "1.9.9"
    (by decide) (by decide) (by decide)
